import Mathlib

/-!
# Verification of the `mlocate-reader` binary decoder and pattern matcher

Shallow embedding of `src/mlocate_reader.py` (functions `parse_mlocate_db`
and `search_paths`).  Byte buffers are modelled as `List Nat`; decoded
strings are modelled as the raw byte slices they come from (the Python code
applies a lossy UTF-8 decoding which is the identity on the ASCII data all
claims are about, and equal byte slices always decode to equal strings).
Python exceptions (`sys.exit`, `ValueError` from `bytes.index`,
`IndexError` / `struct.error` from out-of-range reads) are modelled as
`Except` errors.
-/

namespace Mlocate

/-- A byte buffer: each element is one byte value. -/
abbrev Bytes := List Nat

/-- `MLOCATE_MAGIC = b"\x00mlocate"`. -/
def MLOCATE_MAGIC : Bytes := [0, 109, 108, 111, 99, 97, 116, 101]

/-- `FILE_ENTRY = 0`. -/
def FILE_ENTRY : Nat := 0

/-- `DIR_ENTRY = 1`. -/
def DIR_ENTRY : Nat := 1

/-- `END_ENTRY = 2`. -/
def END_ENTRY : Nat := 2

/-- Errors the decoder can signal.  `invalidFormat` models the
`sys.exit(1)` on a magic mismatch; `corruptRecord pos` models the
`ValueError` raised by `data.index(b"\x00", pos)` when no null terminator
exists at or after `pos`; `unexpectedEOF pos` models the `IndexError` /
`struct.error` raised by a fixed-width read starting at `pos` that runs
past the end of the buffer. -/
inductive ParseError where
  | invalidFormat : ParseError
  | corruptRecord : Nat → ParseError
  | unexpectedEOF : Nat → ParseError
  deriving Repr, DecidableEq

instance {ε α : Type} [DecidableEq ε] [DecidableEq α] : DecidableEq (Except ε α)
  | .error e, .error e' => decidable_of_iff (e = e') (by simp)
  | .error _, .ok _ => isFalse (by simp)
  | .ok _, .error _ => isFalse (by simp)
  | .ok a, .ok a' => decidable_of_iff (a = a') (by simp)

/-- Python `data.index(b"\x00", pos)`: the index of the first zero byte at
position `≥ pos`, or `none` (Python raises `ValueError`). -/
def findNull (data : Bytes) (pos : Nat) : Option Nat :=
  match (data.drop pos).findIdx? (fun b => b == 0) with
  | some i => some (pos + i)
  | none => none

/-- Python slice `data[i:j]`. -/
def slice (data : Bytes) (i j : Nat) : Bytes :=
  (data.take j).drop i

/-- Python `struct.unpack(">I", data[pos:pos+4])[0]`: big-endian unsigned
32-bit read; `none` when fewer than 4 bytes remain (`struct.error`). -/
def readU32BE (data : Bytes) (pos : Nat) : Option Nat :=
  match data.get? pos, data.get? (pos+1), data.get? (pos+2), data.get? (pos+3) with
  | some a, some b, some c, some d => some (((a * 256 + b) * 256 + c) * 256 + d)
  | _, _, _, _ => none

/-- Full-path construction (lines 106–109 of the source): `"/" + name`
when the directory is exactly `"/"`, else `dir + "/" + name`.  Byte 47 is
`'/'`. -/
def mkFullPath (dir name : Bytes) : Bytes :=
  if dir = [47] then 47 :: name else dir ++ [47] ++ name

/-- The `seen` / `all_paths` update (lines 88–90 and 112–114): append `p`
to the order list and record it in `seen` unless already present. -/
def insertPath (seen acc : List Bytes) (p : Bytes) : List Bytes × List Bytes :=
  if p ∈ seen then (seen, acc) else (p :: seen, acc ++ [p])

/-- The inner `while` loop (lines 93–114): read child entries of the
directory `dir` until an `END_ENTRY` byte or the end of the buffer.
Returns the cursor after the loop together with the updated `seen` set and
path list.  `fuel` only bounds the recursion; every iteration advances
`pos` by at least one byte, so any `fuel > data.length - pos` is enough
and the `0` case is unreachable from the top-level entry point. -/
def readEntries (data : Bytes) (dir : Bytes) :
    Nat → Nat → List Bytes → List Bytes →
    Except ParseError (Nat × List Bytes × List Bytes)
  | 0, pos, seen, acc => .ok (pos, seen, acc)
  | fuel+1, pos, seen, acc =>
    if h : pos < data.length then
      let ty := data.get ⟨pos, h⟩
      if ty = END_ENTRY then .ok (pos + 1, seen, acc)
      else
        match findNull data (pos + 1) with
        | none => .error (.corruptRecord (pos + 1))
        | some nullIdx =>
          let name := slice data (pos + 1) nullIdx
          let p := insertPath seen acc (mkFullPath dir name)
          readEntries data dir fuel (nullIdx + 1) p.1 p.2
    else .ok (pos, seen, acc)

/-- The outer `while` loop (lines 75–114): read directory records until
fewer than 16 bytes remain.  Returns the path list in insertion order. -/
def readDirs (data : Bytes) :
    Nat → Nat → List Bytes → List Bytes →
    Except ParseError (List Bytes)
  | 0, _, _, acc => .ok acc
  | fuel+1, pos, seen, acc =>
    if pos < data.length then
      if pos + 16 > data.length then .ok acc
      else
        match findNull data (pos + 16) with
        | none => .error (.corruptRecord (pos + 16))
        | some nullIdx =>
          let dir := slice data (pos + 16) nullIdx
          let p := insertPath seen acc dir
          match readEntries data dir (data.length + 1) (nullIdx + 1) p.1 p.2 with
          | .error e => .error e
          | .ok (pos', seen', acc') => readDirs data fuel pos' seen' acc'
    else .ok acc

/-- The triple `(all_paths, root_path, version)` returned by
`parse_mlocate_db`. -/
structure Decoded where
  paths : List Bytes
  root_path : Bytes
  version : Nat
  deriving Repr, DecidableEq

/-- `parse_mlocate_db` (lines 32–116), applied to the file's bytes.
Checks the magic, reads `config_size` big-endian, reads the version and
visibility bytes, skips 2 padding bytes, reads the null-terminated root
path from offset 16, then jumps the cursor to `8 + 4 + 4 + config_size`
and runs the directory-record loop. -/
def parse_mlocate_db (data : Bytes) : Except ParseError Decoded :=
  if slice data 0 8 ≠ MLOCATE_MAGIC then .error .invalidFormat
  else
    match readU32BE data 8 with
    | none => .error (.unexpectedEOF 8)
    | some config_size =>
      match data.get? 12 with
      | none => .error (.unexpectedEOF 12)
      | some version =>
        match data.get? 13 with
        | none => .error (.unexpectedEOF 13)
        | some _require_vis =>
          match findNull data 16 with
          | none => .error (.corruptRecord 16)
          | some nullIdx =>
            let root_path := slice data 16 nullIdx
            match readDirs data (data.length + 1) (8 + 4 + 4 + config_size) [] [] with
            | .error e => .error e
            | .ok paths => .ok ⟨paths, root_path, version⟩

/-! ## Pattern matcher (`search_paths`, lines 119–154) -/

/-- Error from the matcher: `invalidPattern` models the `sys.exit(1)` on a
`re.error` from `re.compile`. -/
inductive SearchError where
  | invalidPattern : SearchError
  deriving Repr, DecidableEq

/-- ASCII lowercase of one byte (Python `str.lower` restricted to the
ASCII range the claims exercise). -/
def lowerByte (b : Nat) : Nat :=
  if 65 ≤ b ∧ b ≤ 90 then b + 32 else b

/-- Python `s.lower()`. -/
def lowerBytes (s : Bytes) : Bytes := s.map lowerByte

/-- Python `if limit and len(results) >= limit`: the cap fires only for a
truthy (non-`None`, nonzero) `limit`.  `limit` is an `Int` because the CLI
parses it with `type=int`. -/
def limitReached (limit : Option Int) (n : Nat) : Bool :=
  match limit with
  | none => false
  | some l => l != 0 && l ≤ (n : Int)

/-- One `for p in paths:` scan shared verbatim by the three branches of
`search_paths` (lines 130–134, 137–143, 147–152): append each matching
path, and break as soon as the limit check fires. -/
def scanLoop (match? : Bytes → Bool) (limit : Option Int) :
    List Bytes → List Bytes → List Bytes
  | [], results => results
  | p :: ps, results =>
    if match? p then
      if limitReached limit (results ++ [p]).length then results ++ [p]
      else scanLoop match? limit ps (results ++ [p])
    else scanLoop match? limit ps results

/-- Shell-style glob match (`fnmatch.fnmatch`): `*` matches any run of
bytes, `?` one byte, `[...]` a byte class with `!` negation; other bytes
match literally.  Fuel-driven; `pat.length + s.length + 1` always
suffices. -/
def globMatchF : Nat → Bytes → Bytes → Bool
  | 0, _, _ => false
  | _+1, [], s => s.isEmpty
  | fuel+1, 42 :: ps, s =>
    match s with
    | [] => globMatchF fuel ps []
    | _ :: cs => globMatchF fuel ps s || globMatchF fuel (42 :: ps) cs
  | fuel+1, 63 :: ps, s =>
    match s with
    | [] => false
    | _ :: cs => globMatchF fuel ps cs
  | fuel+1, 91 :: ps, s =>
    -- character class: find the closing ']'
    match ps.findIdx? (fun b => b == 93) with
    | none =>
      -- no closing ']': '[' is matched literally
      match s with
      | c :: cs => c == 91 && globMatchF fuel ps cs
      | [] => false
    | some idx =>
      match s with
      | c :: cs =>
        let cls := ps.take idx
        let neg := cls.head? == some 33
        let body := if neg then cls.drop 1 else cls
        (neg != body.contains c) && globMatchF fuel (ps.drop (idx + 1)) cs
      | [] => false
  | fuel+1, p :: ps, s =>
    match s with
    | [] => false
    | c :: cs => p == c && globMatchF fuel ps cs

/-- `fnmatch.fnmatch target pat` as used by the glob branch. -/
def globMatch (pat s : Bytes) : Bool :=
  globMatchF (pat.length + s.length + 1) pat s

/-- Python's `pat in target` for strings: substring containment, checked
at every suffix of `target` (the empty pattern is contained in
everything). -/
def containsSub (pat : Bytes) : Bytes → Bool
  | [] => pat.isEmpty
  | c :: cs => pat.isPrefixOf (c :: cs) || containsSub pat cs

/-- `search_paths` (lines 119–154).  The Python `re` module is external
library code, so the regex branch is parameterised by `rxCompile`, the
model of `re.compile` (taking the `re.IGNORECASE` flag and the pattern,
returning `none` on `re.error` and otherwise a total match predicate
modelling `rx.search`).  Everything else is translated directly. -/
def search_paths (rxCompile : Bool → Bytes → Option (Bytes → Bool))
    (paths : List Bytes) (pattern : Bytes)
    (ignore_case use_glob use_regex : Bool) (limit : Option Int) :
    Except SearchError (List Bytes) :=
  if use_regex then
    match rxCompile ignore_case pattern with
    | none => .error .invalidPattern
    | some rx => .ok (scanLoop rx limit paths [])
  else if use_glob then
    .ok (scanLoop
      (fun p =>
        let target := if ignore_case then lowerBytes p else p
        let pat := if ignore_case then lowerBytes pattern else pattern
        globMatch pat target)
      limit paths [])
  else
    let pat := if ignore_case then lowerBytes pattern else pattern
    .ok (scanLoop
      (fun p =>
        let target := if ignore_case then lowerBytes p else p
        containsSub pat target)
      limit paths [])

/-! ## Helper lemmas about the byte-buffer primitives -/

theorem slice_eq_drop_take (data : Bytes) (i j : Nat) :
    slice data i j = (data.drop i).take (j - i) := by
  simp [slice, List.drop_take]

theorem get?_of_drop {data : Bytes} {pos : Nat} {b : Nat} {rest : Bytes}
    (h : data.drop pos = b :: rest) : data.get? pos = some b := by
  have := List.getElem?_drop data pos 0
  rw [h] at this
  simp only [List.getElem?_cons_zero] at this
  rw [List.get?_eq_getElem?]
  simpa using this.symm

theorem length_drop_eq {data : Bytes} {pos : Nat} :
    (data.drop pos).length = data.length - pos := List.length_drop pos data

theorem lt_length_of_drop_cons {data : Bytes} {pos : Nat} {b : Nat} {rest : Bytes}
    (h : data.drop pos = b :: rest) : pos < data.length := by
  by_contra hcon
  push_neg at hcon
  rw [List.drop_eq_nil_iff.mpr hcon] at h
  exact List.noConfusion h

theorem findIdx?_zero_append {xs rest : Bytes} (hx : ∀ b ∈ xs, b ≠ 0) :
    (xs ++ 0 :: rest).findIdx? (fun b => b == 0) = some xs.length := by
  induction xs with
  | nil => simp [List.findIdx?_cons]
  | cons a as ih =>
    have ha : a ≠ 0 := hx a (List.mem_cons_self a as)
    have ih' := ih (fun b hb => hx b (List.mem_cons_of_mem a hb))
    simp [List.findIdx?_cons, ha, ih']

theorem findIdx?_none_of_no_zero {xs : Bytes} (hx : ∀ b ∈ xs, b ≠ 0) :
    xs.findIdx? (fun b => b == 0) = none := by
  induction xs with
  | nil => simp
  | cons a as ih =>
    have ha : a ≠ 0 := hx a (List.mem_cons_self a as)
    have ih' := ih (fun b hb => hx b (List.mem_cons_of_mem a hb))
    simp [List.findIdx?_cons, ha, ih']

/-- `findNull` on a buffer whose suffix at `pos` starts with a
zero-free block `xs` followed by a null byte finds exactly the end of
`xs`. -/
theorem findNull_of_drop {data : Bytes} {pos : Nat} {xs rest : Bytes}
    (h : data.drop pos = xs ++ 0 :: rest) (hx : ∀ b ∈ xs, b ≠ 0) :
    findNull data pos = some (pos + xs.length) := by
  unfold findNull
  rw [h, findIdx?_zero_append hx]

/-- `findNull` fails when no null byte occurs at or after `pos`. -/
theorem findNull_none {data : Bytes} {pos : Nat}
    (h : ∀ b ∈ data.drop pos, b ≠ 0) : findNull data pos = none := by
  unfold findNull
  rw [findIdx?_none_of_no_zero h]

/-- The slice delimited by a `findNull` hit recovers the zero-free
block. -/
theorem slice_of_drop {data : Bytes} {pos : Nat} {xs rest : Bytes}
    (h : data.drop pos = xs ++ rest) :
    slice data pos (pos + xs.length) = xs := by
  rw [slice_eq_drop_take, h, Nat.add_sub_cancel_left, List.take_left]

theorem drop_add (data : Bytes) (pos k : Nat) :
    data.drop (pos + k) = (data.drop pos).drop k := by
  rw [List.drop_drop, Nat.add_comm]

/-! ## Synthetic valid buffers

Constructors for the byte layout of §6 of the spec:
`magic[8]`, `config_size:u32` (big-endian), `version:u8`,
`require_vis:u8`, `padding[2]`, `root_path` cstring, an opaque block,
then repeating directory records.  `encodeDB` writes `config_size` as
`root.length + 1 + blob.length`, the value under which the parser's
cursor jump `8 + 4 + 4 + config_size` lands exactly at the start of the
record stream. -/

/-- Big-endian 4-byte encoding of `n`. -/
def u32be (n : Nat) : Bytes :=
  [n / 2 ^ 24 % 256, n / 2 ^ 16 % 256, n / 2 ^ 8 % 256, n % 256]

/-- One child entry: a `FILE_ENTRY` type byte, the name, a null. -/
def encodeEntry (name : Bytes) : Bytes := FILE_ENTRY :: (name ++ [0])

/-- A child-entry list followed by the `END_ENTRY` sentinel. -/
def encodeEntries (names : List Bytes) : Bytes :=
  (names.map encodeEntry).flatten ++ [END_ENTRY]

/-- One directory record: 16-byte header, the directory path cstring,
then its child entries. -/
def encodeDir (d : Bytes) (names : List Bytes) : Bytes :=
  List.replicate 16 0 ++ d ++ [0] ++ encodeEntries names

/-- A record stream. -/
def encodeRecords (recs : List (Bytes × List Bytes)) : Bytes :=
  (recs.map (fun r => encodeDir r.1 r.2)).flatten

/-- The paths of a record stream in order of appearance: each directory
path followed by the full paths of its children. -/
def expectedPaths (recs : List (Bytes × List Bytes)) : List Bytes :=
  (recs.map (fun r => r.1 :: r.2.map (mkFullPath r.1))).flatten

/-- A whole database file. -/
def encodeDB (root blob : Bytes) (version require_vis : Nat)
    (recs : List (Bytes × List Bytes)) : Bytes :=
  MLOCATE_MAGIC ++ u32be (root.length + 1 + blob.length) ++
    [version, require_vis, 0, 0] ++ root ++ [0] ++ blob ++ encodeRecords recs

/-- All directory paths and child names of a record stream are free of
null bytes (so that each cstring's terminator is the written one). -/
def validRecs (recs : List (Bytes × List Bytes)) : Prop :=
  ∀ r ∈ recs, (∀ b ∈ r.1, b ≠ 0) ∧ ∀ n ∈ r.2, ∀ b ∈ n, b ≠ 0

instance : DecidablePred validRecs := fun recs => by
  unfold validRecs; infer_instance

theorem encodeEntries_cons (n : Bytes) (ns : List Bytes) :
    encodeEntries (n :: ns) = encodeEntry n ++ encodeEntries ns := by
  simp [encodeEntries, List.flatten_cons, List.append_assoc]

theorem encodeRecords_cons (d : Bytes) (ns : List Bytes)
    (recs : List (Bytes × List Bytes)) :
    encodeRecords ((d, ns) :: recs) = encodeDir d ns ++ encodeRecords recs := by
  simp [encodeRecords, List.flatten_cons]

theorem expectedPaths_cons (d : Bytes) (ns : List Bytes)
    (recs : List (Bytes × List Bytes)) :
    expectedPaths ((d, ns) :: recs) =
      (d :: ns.map (mkFullPath d)) ++ expectedPaths recs := by
  simp [expectedPaths, List.flatten_cons]

theorem length_le_encodeEntries (ns : List Bytes) :
    ns.length ≤ (encodeEntries ns).length := by
  induction ns with
  | nil => simp [encodeEntries]
  | cons n ns ih =>
    rw [encodeEntries_cons]
    simp only [List.length_cons, List.length_append]
    have : 1 ≤ (encodeEntry n).length := by simp [encodeEntry]
    omega

/-- Reading the big-endian field back. -/
theorem readU32BE_of_drop {data : Bytes} {pos n : Nat} {rest : Bytes}
    (h : data.drop pos = u32be n ++ rest) (hn : n < 2 ^ 32) :
    readU32BE data pos = some n := by
  unfold u32be at h
  have h0 : data.get? pos = some (n / 2 ^ 24 % 256) := get?_of_drop h
  have d1 : data.drop (pos + 1) = [n / 2 ^ 16 % 256, n / 2 ^ 8 % 256, n % 256] ++ rest := by
    rw [drop_add, h]; rfl
  have h1 : data.get? (pos + 1) = some (n / 2 ^ 16 % 256) := get?_of_drop d1
  have d2 : data.drop (pos + 2) = [n / 2 ^ 8 % 256, n % 256] ++ rest := by
    rw [drop_add, h]; rfl
  have h2 : data.get? (pos + 2) = some (n / 2 ^ 8 % 256) := get?_of_drop d2
  have d3 : data.drop (pos + 3) = [n % 256] ++ rest := by
    rw [drop_add, h]; rfl
  have h3 : data.get? (pos + 3) = some (n % 256) := get?_of_drop d3
  unfold readU32BE
  rw [h0, h1, h2, h3]
  norm_num at hn ⊢
  omega

/-! ## Unfolding lemmas for the two loops -/

theorem get_of_get? {data : Bytes} {pos b : Nat} (h : pos < data.length)
    (hget : data.get? pos = some b) : data.get ⟨pos, h⟩ = b := by
  rw [List.get?_eq_get h] at hget
  exact Option.some.inj hget

theorem readEntries_step_end {data d : Bytes} {fuel pos : Nat}
    {seen acc : List Bytes} (hlt : pos < data.length)
    (hget : data.get? pos = some END_ENTRY) :
    readEntries data d (fuel + 1) pos seen acc = .ok (pos + 1, seen, acc) := by
  simp only [readEntries]
  rw [dif_pos hlt, get_of_get? hlt hget, if_pos rfl]

theorem readEntries_step_entry {data d : Bytes} {fuel pos : Nat}
    {seen acc : List Bytes} {ty nullIdx : Nat} (hlt : pos < data.length)
    (hget : data.get? pos = some ty) (hty : ty ≠ END_ENTRY)
    (hfind : findNull data (pos + 1) = some nullIdx) :
    readEntries data d (fuel + 1) pos seen acc =
      readEntries data d fuel (nullIdx + 1)
        (insertPath seen acc (mkFullPath d (slice data (pos + 1) nullIdx))).1
        (insertPath seen acc (mkFullPath d (slice data (pos + 1) nullIdx))).2 := by
  simp only [readEntries]
  rw [dif_pos hlt, get_of_get? hlt hget, if_neg hty, hfind]

theorem readEntries_step_err {data d : Bytes} {fuel pos : Nat}
    {seen acc : List Bytes} {ty : Nat} (hlt : pos < data.length)
    (hget : data.get? pos = some ty) (hty : ty ≠ END_ENTRY)
    (hfind : findNull data (pos + 1) = none) :
    readEntries data d (fuel + 1) pos seen acc =
      .error (.corruptRecord (pos + 1)) := by
  simp only [readEntries]
  rw [dif_pos hlt, get_of_get? hlt hget, if_neg hty, hfind]

theorem readDirs_at_end {data : Bytes} {fuel pos : Nat} {seen acc : List Bytes}
    (h : data.length ≤ pos) : readDirs data fuel pos seen acc = .ok acc := by
  cases fuel with
  | zero => rfl
  | succ f =>
    simp only [readDirs]
    rw [if_neg (by omega)]

theorem readDirs_stop_short {data : Bytes} {fuel pos : Nat} {seen acc : List Bytes}
    (h : pos < data.length) (h16 : data.length < pos + 16) :
    readDirs data (fuel + 1) pos seen acc = .ok acc := by
  simp only [readDirs]
  rw [if_pos h, if_pos (by omega)]

theorem readDirs_step {data : Bytes} {fuel pos : Nat} {seen acc : List Bytes}
    {nullIdx : Nat} (h16 : pos + 16 ≤ data.length)
    (hfind : findNull data (pos + 16) = some nullIdx) :
    readDirs data (fuel + 1) pos seen acc =
      match readEntries data (slice data (pos + 16) nullIdx) (data.length + 1)
          (nullIdx + 1)
          (insertPath seen acc (slice data (pos + 16) nullIdx)).1
          (insertPath seen acc (slice data (pos + 16) nullIdx)).2 with
      | .error e => .error e
      | .ok (pos', seen', acc') => readDirs data fuel pos' seen' acc' := by
  simp only [readDirs]
  rw [if_pos (by omega), if_neg (by omega), hfind]

theorem readDirs_step_err {data : Bytes} {fuel pos : Nat} {seen acc : List Bytes}
    (h16 : pos + 16 ≤ data.length)
    (hfind : findNull data (pos + 16) = none) :
    readDirs data (fuel + 1) pos seen acc = .error (.corruptRecord (pos + 16)) := by
  simp only [readDirs]
  rw [if_pos (by omega), if_neg (by omega), hfind]

/-! ## Decoding a synthetic record stream -/

/-- Running the child-entry loop over an encoded entry list: the cursor
ends just past the `END_ENTRY` byte and the full paths of all entries are
appended in order (no deduplication fires because the constructed paths
are new and distinct). -/
theorem readEntries_encode (data d : Bytes) (ns : List Bytes) :
    ∀ (fuel pos : Nat) (seen acc : List Bytes) (rest : Bytes),
      data.drop pos = encodeEntries ns ++ rest →
      (∀ n ∈ ns, ∀ b ∈ n, b ≠ 0) →
      ns.length + 1 ≤ fuel →
      (∀ p, p ∈ seen ↔ p ∈ acc) →
      (∀ n ∈ ns, mkFullPath d n ∉ acc) →
      (ns.map (mkFullPath d)).Nodup →
      ∃ seen',
        readEntries data d fuel pos seen acc =
          .ok (pos + (encodeEntries ns).length, seen',
            acc ++ ns.map (mkFullPath d)) ∧
        ∀ p, p ∈ seen' ↔ p ∈ acc ++ ns.map (mkFullPath d) := by
  induction ns with
  | nil =>
    intro fuel pos seen acc rest hdrop _ hfuel hsync _ _
    obtain ⟨f, rfl⟩ : ∃ f, fuel = f + 1 := ⟨fuel - 1, by omega⟩
    have hdrop' : data.drop pos = 2 :: rest := by
      simpa [encodeEntries] using hdrop
    have hlt : pos < data.length := lt_length_of_drop_cons hdrop'
    have hget : data.get? pos = some END_ENTRY := get?_of_drop hdrop'
    refine ⟨seen, ?_, by simpa using hsync⟩
    rw [readEntries_step_end hlt hget]
    simp [encodeEntries]
  | cons n ns ih =>
    intro fuel pos seen acc rest hdrop hz hfuel hsync hnew hnd
    obtain ⟨f, rfl⟩ : ∃ f, fuel = f + 1 := ⟨fuel - 1, by omega⟩
    rw [encodeEntries_cons] at hdrop
    have hdrop' : data.drop pos =
        0 :: (n ++ 0 :: (encodeEntries ns ++ rest)) := by
      simpa [encodeEntry] using hdrop
    have hlt : pos < data.length := lt_length_of_drop_cons hdrop'
    have hget : data.get? pos = some 0 := get?_of_drop hdrop'
    have hdrop1 : data.drop (pos + 1) = n ++ 0 :: (encodeEntries ns ++ rest) := by
      rw [drop_add, hdrop']; rfl
    have hz_n : ∀ b ∈ n, b ≠ 0 := (hz n (List.mem_cons_self n ns))
    have hfind : findNull data (pos + 1) = some (pos + 1 + n.length) :=
      findNull_of_drop hdrop1 hz_n
    have hslice : slice data (pos + 1) (pos + 1 + n.length) = n := by
      apply slice_of_drop
      rw [hdrop1]
    -- the constructed path is fresh, so `insertPath` really inserts it
    have hmem_acc : mkFullPath d n ∉ acc := hnew n (List.mem_cons_self n ns)
    have hmem_seen : mkFullPath d n ∉ seen := fun hm => hmem_acc ((hsync _).mp hm)
    have hins : insertPath seen acc (mkFullPath d n) =
        (mkFullPath d n :: seen, acc ++ [mkFullPath d n]) := by
      rw [insertPath, if_neg hmem_seen]
    rw [readEntries_step_entry hlt hget (by decide) hfind]
    rw [hslice, hins]
    -- set up the induction hypothesis at the next cursor position
    have hdrop2 : data.drop (pos + 1 + n.length + 1) = encodeEntries ns ++ rest := by
      have e1 : pos + 1 + n.length + 1 = (pos + 1) + (n.length + 1) := by omega
      rw [e1, drop_add, hdrop1,
        show n ++ 0 :: (encodeEntries ns ++ rest)
          = (n ++ [0]) ++ (encodeEntries ns ++ rest) by simp]
      exact List.drop_left' (by simp)
    have hsync' : ∀ p, p ∈ mkFullPath d n :: seen ↔ p ∈ acc ++ [mkFullPath d n] := by
      intro p
      simp [hsync p, or_comm]
    have hnew' : ∀ m ∈ ns, mkFullPath d m ∉ acc ++ [mkFullPath d n] := by
      intro m hm
      simp only [List.mem_append, List.mem_singleton]
      rintro (hmem | heq)
      · exact hnew m (List.mem_cons_of_mem n hm) hmem
      · rw [List.map_cons, List.nodup_cons] at hnd
        exact hnd.1 (heq ▸ List.mem_map_of_mem (mkFullPath d) hm)
    have hnd' : (ns.map (mkFullPath d)).Nodup := by
      rw [List.map_cons, List.nodup_cons] at hnd
      exact hnd.2
    obtain ⟨seen', heq, hsync''⟩ :=
      ih f (pos + 1 + n.length + 1) (mkFullPath d n :: seen)
        (acc ++ [mkFullPath d n]) rest hdrop2
        (fun m hm => hz m (List.mem_cons_of_mem n hm))
        (by simp at hfuel ⊢; omega) hsync' hnew' hnd'
    have e2 : pos + 1 + n.length + 1 + (encodeEntries ns).length =
        pos + (encodeEntries (n :: ns)).length := by
      rw [encodeEntries_cons]
      simp [encodeEntry]
      omega
    have e3 : (acc ++ [mkFullPath d n]) ++ ns.map (mkFullPath d) =
        acc ++ (n :: ns).map (mkFullPath d) := by simp
    refine ⟨seen', ?_, ?_⟩
    · rw [heq, e2, e3]
    · intro p
      rw [hsync'' p, e3]
/-- Running the directory-record loop over an encoded record stream: the
records are consumed in order, each contributing its directory path and
child paths, and the loop continues at the first byte after the stream
with enough fuel left. -/
theorem readDirs_process (data : Bytes) (recs : List (Bytes × List Bytes)) :
    ∀ (fuel pos : Nat) (seen acc : List Bytes) (rest : Bytes),
      data.drop pos = encodeRecords recs ++ rest →
      validRecs recs →
      data.length + 1 ≤ fuel + pos →
      (∀ p, p ∈ seen ↔ p ∈ acc) →
      (∀ p ∈ expectedPaths recs, p ∉ acc) →
      (expectedPaths recs).Nodup →
      ∃ fuel' seen',
        readDirs data fuel pos seen acc =
          readDirs data fuel' (pos + (encodeRecords recs).length) seen'
            (acc ++ expectedPaths recs) ∧
        data.length + 1 ≤ fuel' + (pos + (encodeRecords recs).length) ∧
        ∀ p, p ∈ seen' ↔ p ∈ acc ++ expectedPaths recs := by
  induction recs with
  | nil =>
    intro fuel pos seen acc rest hdrop _ hfuel hsync _ _
    refine ⟨fuel, seen, ?_, ?_, ?_⟩
    · simp [encodeRecords, expectedPaths]
    · simpa [encodeRecords] using hfuel
    · simpa [expectedPaths] using hsync
  | cons r recs ih =>
    obtain ⟨d, ns⟩ := r
    intro fuel pos seen acc rest hdrop hvalid hfuel hsync hfresh hnd
    rw [encodeRecords_cons] at hdrop
    rw [expectedPaths_cons] at hfresh hnd
    have hvd : ∀ b ∈ d, b ≠ 0 := (hvalid (d, ns) (List.mem_cons_self _ _)).1
    have hvn : ∀ n ∈ ns, ∀ b ∈ n, b ≠ 0 := (hvalid (d, ns) (List.mem_cons_self _ _)).2
    -- the suffix at `pos` starts with the encoded record
    have hdrop0 : data.drop pos =
        List.replicate 16 0 ++ (d ++ 0 :: (encodeEntries ns ++
          (encodeRecords recs ++ rest))) := by
      rw [hdrop]
      simp [encodeDir]
    have hrem : (data.drop pos).length = data.length - pos := length_drop_eq
    have hlen18 : pos + 17 + d.length + (encodeEntries ns).length
        + (encodeRecords recs ++ rest).length = data.length := by
      have := congrArg List.length hdrop0
      rw [hrem] at this
      simp [encodeEntries] at this ⊢
      omega
    have hpos16 : pos + 16 ≤ data.length := by omega
    obtain ⟨f, rfl⟩ : ∃ f, fuel = f + 1 := ⟨fuel - 1, by omega⟩
    -- the directory path cstring
    have hdrop16 : data.drop (pos + 16) =
        d ++ 0 :: (encodeEntries ns ++ (encodeRecords recs ++ rest)) := by
      rw [drop_add, hdrop0]
      exact List.drop_left' (by simp)
    have hfind : findNull data (pos + 16) = some (pos + 16 + d.length) :=
      findNull_of_drop hdrop16 hvd
    have hslice : slice data (pos + 16) (pos + 16 + d.length) = d := by
      apply slice_of_drop
      rw [hdrop16]
    -- the directory path is fresh
    have hd_acc : d ∉ acc := hfresh d (by simp)
    have hd_seen : d ∉ seen := fun hm => hd_acc ((hsync _).mp hm)
    have hins : insertPath seen acc d = (d :: seen, acc ++ [d]) := by
      rw [insertPath, if_neg hd_seen]
    rw [readDirs_step hpos16 hfind, hslice, hins]
    -- child entries: apply the entry-loop lemma
    have hdrop17 : data.drop (pos + 16 + d.length + 1) =
        encodeEntries ns ++ (encodeRecords recs ++ rest) := by
      have e1 : pos + 16 + d.length + 1 = (pos + 16) + (d.length + 1) := by omega
      rw [e1, drop_add, hdrop16,
        show d ++ 0 :: (encodeEntries ns ++ (encodeRecords recs ++ rest))
          = (d ++ [0]) ++ (encodeEntries ns ++ (encodeRecords recs ++ rest)) by simp]
      exact List.drop_left' (by simp)
    have hnd_parts := List.nodup_cons.mp hnd
    have hnd_split := List.nodup_append.mp hnd_parts.2
    have hsync1 : ∀ p, p ∈ d :: seen ↔ p ∈ acc ++ [d] := by
      intro p
      simp [hsync p, or_comm]
    have hnew1 : ∀ n ∈ ns, mkFullPath d n ∉ acc ++ [d] := by
      intro n hn
      simp only [List.mem_append, List.mem_singleton]
      rintro (hmem | heq)
      · exact hfresh (mkFullPath d n)
          (by simp [List.mem_map_of_mem _ hn]) hmem
      · refine hnd_parts.1 (List.mem_append_left _ ?_)
        have hmm : mkFullPath d n ∈ List.map (mkFullPath d) ns :=
          List.mem_map_of_mem (mkFullPath d) hn
        rwa [heq] at hmm
    have hfuel_e : ns.length + 1 ≤ data.length + 1 := by
      have h1 : ns.length ≤ (encodeEntries ns).length := length_le_encodeEntries ns
      omega
    obtain ⟨seen2, heq2, hsync2⟩ :=
      readEntries_encode data d ns (data.length + 1) (pos + 16 + d.length + 1)
        (d :: seen) (acc ++ [d]) (encodeRecords recs ++ rest) hdrop17 hvn
        hfuel_e hsync1 hnew1 hnd_split.1
    rw [heq2]
    -- continue with the remaining records
    have hdrop3 : data.drop (pos + 16 + d.length + 1 + (encodeEntries ns).length) =
        encodeRecords recs ++ rest := by
      rw [drop_add, hdrop17]
      exact List.drop_left' rfl
    have hsync3 : ∀ p, p ∈ seen2 ↔ p ∈ (acc ++ [d]) ++ ns.map (mkFullPath d) :=
      hsync2
    have hfresh3 : ∀ p ∈ expectedPaths recs,
        p ∉ (acc ++ [d]) ++ ns.map (mkFullPath d) := by
      intro p hp
      simp only [List.mem_append, List.mem_singleton]
      rintro ((hmem | heq) | hmap)
      · exact hfresh p (by simp [hp]) hmem
      · exact hnd_parts.1 (by rw [← heq]; simp [hp])
      · exact hnd_split.2.2 hmap hp
    obtain ⟨fuel', seen', heq', hfuel', hsync'⟩ :=
      ih f (pos + 16 + d.length + 1 + (encodeEntries ns).length) seen2
        ((acc ++ [d]) ++ ns.map (mkFullPath d)) rest hdrop3
        (fun r hr => hvalid r (List.mem_cons_of_mem _ hr))
        (by omega) hsync3 hfresh3 hnd_split.2.1
    have e2 : pos + 16 + d.length + 1 + (encodeEntries ns).length
        + (encodeRecords recs).length
        = pos + (encodeRecords ((d, ns) :: recs)).length := by
      rw [encodeRecords_cons]
      simp [encodeDir]
      omega
    have e3 : ((acc ++ [d]) ++ ns.map (mkFullPath d)) ++ expectedPaths recs
        = acc ++ expectedPaths ((d, ns) :: recs) := by
      rw [expectedPaths_cons]
      simp
    refine ⟨fuel', seen', ?_, ?_, ?_⟩
    · show readDirs data f
          (pos + 16 + List.length d + 1 + List.length (encodeEntries ns)) seen2
          (acc ++ [d] ++ List.map (mkFullPath d) ns) =
        readDirs data fuel' (pos + (encodeRecords ((d, ns) :: recs)).length) seen'
          (acc ++ expectedPaths ((d, ns) :: recs))
      rw [heq', e2, e3]
    · rw [← e2]; omega
    · intro p
      rw [hsync' p, e3]

theorem encodeDB_length (root blob : Bytes) (version require_vis : Nat)
    (recs : List (Bytes × List Bytes)) :
    (encodeDB root blob version require_vis recs).length =
      17 + root.length + blob.length + (encodeRecords recs).length := by
  simp [encodeDB, MLOCATE_MAGIC, u32be]
  omega

/-- Decoding a synthetic database built by `encodeDB`, possibly followed
by trailing bytes: the magic check passes, the root path and version are
read from the header, the record stream — which starts at the cursor
jump target `8 + 4 + 4 + config_size` because `encodeDB` writes
`config_size = root.length + 1 + blob.length` — yields its paths in
order of appearance, and the directory loop continues on the trailing
bytes. -/
theorem parse_encodeDB_ext (root blob : Bytes) (version require_vis : Nat)
    (recs : List (Bytes × List Bytes)) (extra : Bytes)
    (hroot : ∀ b ∈ root, b ≠ 0)
    (hsz : root.length + 1 + blob.length < 2 ^ 32)
    (hvalid : validRecs recs)
    (hnd : (expectedPaths recs).Nodup) :
    ∃ fuel' seen',
      parse_mlocate_db (encodeDB root blob version require_vis recs ++ extra) =
        (match readDirs (encodeDB root blob version require_vis recs ++ extra)
            fuel' (encodeDB root blob version require_vis recs).length seen'
            (expectedPaths recs) with
         | .error e => .error e
         | .ok paths => .ok ⟨paths, root, version⟩) ∧
      (encodeDB root blob version require_vis recs ++ extra).length + 1 ≤
        fuel' + (encodeDB root blob version require_vis recs).length ∧
      ∀ p, p ∈ seen' ↔ p ∈ expectedPaths recs := by
  set K := root.length + 1 + blob.length with hKdef
  set E := encodeDB root blob version require_vis recs ++ extra with hEdef
  have hE : E = MLOCATE_MAGIC ++ (u32be K ++ ([version, require_vis, 0, 0] ++
      (root ++ (0 :: (blob ++ (encodeRecords recs ++ extra)))))) := by
    rw [hEdef]
    simp [encodeDB, List.append_assoc]
  have hdrop8 : E.drop 8 = u32be K ++ ([version, require_vis, 0, 0] ++
      (root ++ (0 :: (blob ++ (encodeRecords recs ++ extra))))) := by
    rw [hE]
    exact List.drop_left' (by simp [MLOCATE_MAGIC])
  have hU32 : readU32BE E 8 = some K :=
    readU32BE_of_drop (by rw [hdrop8]) hsz
  have hdrop12 : E.drop 12 = version :: require_vis :: 0 :: 0 ::
      (root ++ (0 :: (blob ++ (encodeRecords recs ++ extra)))) := by
    rw [show (12 : Nat) = 8 + 4 from rfl, drop_add, hdrop8]
    rw [List.drop_left' (by simp [u32be])]
    rfl
  have hget12 : E.get? 12 = some version := get?_of_drop hdrop12
  have hdrop13 : E.drop 13 = require_vis :: 0 :: 0 ::
      (root ++ (0 :: (blob ++ (encodeRecords recs ++ extra)))) := by
    rw [show (13 : Nat) = 12 + 1 from rfl, drop_add, hdrop12]
    rfl
  have hget13 : E.get? 13 = some require_vis := get?_of_drop hdrop13
  have hdrop16 : E.drop 16 = root ++ (0 :: (blob ++ (encodeRecords recs ++ extra))) := by
    rw [show (16 : Nat) = 12 + 4 from rfl, drop_add, hdrop12]
    rfl
  have hfind16 : findNull E 16 = some (16 + root.length) :=
    findNull_of_drop hdrop16 hroot
  have hsliceRoot : slice E 16 (16 + root.length) = root := by
    apply slice_of_drop
    rw [hdrop16]
  have hdropK : E.drop (16 + K) = encodeRecords recs ++ extra := by
    rw [drop_add, hdrop16]
    rw [show root ++ (0 :: (blob ++ (encodeRecords recs ++ extra)))
        = (root ++ 0 :: blob) ++ (encodeRecords recs ++ extra) by simp]
    exact List.drop_left' (by simp [hKdef]; omega)
  have hDL : (encodeDB root blob version require_vis recs).length =
      16 + K + (encodeRecords recs).length := by
    rw [encodeDB_length, hKdef]
    omega
  have hlen : E.length = 16 + K + (encodeRecords recs).length + extra.length := by
    rw [hEdef]
    simp [hDL]
  obtain ⟨fuel', seen', heq, hfuel', hsync'⟩ :=
    readDirs_process E recs (E.length + 1) (16 + K) [] [] extra
      hdropK hvalid (by omega) (by simp) (by simp) hnd
  refine ⟨fuel', seen', ?_, by omega, by simpa using hsync'⟩
  have hmagic : slice E 0 8 = MLOCATE_MAGIC := by
    rw [slice_eq_drop_take]
    simp only [List.drop_zero, Nat.sub_zero]
    rw [hE]
    exact List.take_left' (by simp [MLOCATE_MAGIC])
  simp only [parse_mlocate_db]
  rw [hmagic]
  rw [if_neg (by simp)]
  rw [hU32, hget12, hget13, hfind16]
  simp only [hsliceRoot]
  rw [show (8 + 4 + 4 + K : Nat) = 16 + K by omega, heq]
  rw [List.nil_append, hDL]

/-- Decoding a synthetic database built by `encodeDB` with nothing after
the record stream succeeds with exactly the stream's paths. -/
theorem parse_encodeDB (root blob : Bytes) (version require_vis : Nat)
    (recs : List (Bytes × List Bytes))
    (hroot : ∀ b ∈ root, b ≠ 0)
    (hsz : root.length + 1 + blob.length < 2 ^ 32)
    (hvalid : validRecs recs)
    (hnd : (expectedPaths recs).Nodup) :
    parse_mlocate_db (encodeDB root blob version require_vis recs) =
      .ok ⟨expectedPaths recs, root, version⟩ := by
  obtain ⟨fuel', seen', heq, hfuel', _⟩ :=
    parse_encodeDB_ext root blob version require_vis recs [] hroot hsz hvalid hnd
  rw [List.append_nil] at heq hfuel'
  rw [heq, readDirs_at_end (le_refl _)]

theorem expectedPaths_length (M : Nat) (recs : List (Bytes × List Bytes))
    (hM : ∀ r ∈ recs, r.2.length = M) :
    (expectedPaths recs).length = recs.length * (M + 1) := by
  induction recs with
  | nil => simp [expectedPaths]
  | cons r recs ih =>
    obtain ⟨d, ns⟩ := r
    rw [expectedPaths_cons]
    have hns : ns.length = M := hM (d, ns) (List.mem_cons_self _ _)
    have ih' := ih (fun r hr => hM r (List.mem_cons_of_mem _ hr))
    simp [ih', hns]
    ring

/-- C1: decoding a synthetically constructed valid buffer containing `N`
directory records each holding `M` child names — with the constructed
paths pairwise distinct, as "unique" requires — returns exactly
`N + N·M` unique paths, in the order the directories and entries appear
in the byte stream (`expectedPaths` lists each directory path followed by
its children's full paths, in stream order). -/
theorem C1_round_trip (root blob : Bytes) (version require_vis N M : Nat)
    (recs : List (Bytes × List Bytes))
    (hroot : ∀ b ∈ root, b ≠ 0)
    (hsz : root.length + 1 + blob.length < 2 ^ 32)
    (hvalid : validRecs recs)
    (hnd : (expectedPaths recs).Nodup)
    (hN : recs.length = N)
    (hM : ∀ r ∈ recs, r.2.length = M) :
    parse_mlocate_db (encodeDB root blob version require_vis recs) =
      .ok ⟨expectedPaths recs, root, version⟩ ∧
    (expectedPaths recs).length = N + N * M ∧
    (expectedPaths recs).Nodup := by
  refine ⟨parse_encodeDB root blob version require_vis recs hroot hsz hvalid hnd,
    ?_, hnd⟩
  rw [expectedPaths_length M recs hM, hN]
  ring

/-- Witness for C1 at a concrete two-directory, one-child-each buffer:
directories `"/"` and `"/b"`, children `"a"` and `"c"`, giving the four
paths `"/"`, `"/a"`, `"/b"`, `"/b/c"`. -/
theorem C1_round_trip_witness :
    (expectedPaths [([47], [[97]]), ([47, 98], [[99]])]).Nodup ∧
    parse_mlocate_db (encodeDB [] [] 1 0 [([47], [[97]]), ([47, 98], [[99]])]) =
      .ok ⟨expectedPaths [([47], [[97]]), ([47, 98], [[99]])], [], 1⟩ ∧
    (expectedPaths [([47], [[97]]), ([47, 98], [[99]])]).length = 2 + 2 * 1 :=
  ⟨by decide,
    (C1_round_trip [] [] 1 0 2 1 [([47], [[97]]), ([47, 98], [[99]])]
      (by decide) (by decide) (by decide) (by decide) (by decide)
      (by decide)).1,
    (C1_round_trip [] [] 1 0 2 1 [([47], [[97]]), ([47, 98], [[99]])]
      (by decide) (by decide) (by decide) (by decide) (by decide)
      (by decide)).2.1⟩

/-- C4 counterexample: a buffer laid out exactly per the
external-interface description — root path `"AB"`, an empty config block
(`config_size = 0`), and one directory record for `"/"` with no children
starting at offset `16 + 2 + 1 + 0 = 19`.  The claim predicts the single
path `"/"` (`[[47]]`); the decoder instead jumps to offset
`16 + config_size = 16`, misreads the record stream, and returns the two
paths `""` and `"/"` (`[[], [47]]`). -/
theorem C4_counterexample :
    parse_mlocate_db (MLOCATE_MAGIC ++ [0, 0, 0, 0] ++ [1, 0, 0, 0] ++ [65, 66, 0]
        ++ List.replicate 16 0 ++ [47, 0] ++ [2]) =
      .ok ⟨[[], [47]], [65, 66], 1⟩ ∧
    ([[], [47]] : List Bytes) ≠ [[47]] := by
  constructor
  · decide
  · decide

/-- C4 amended: the decoder reads the directory-record stream starting at
byte offset `16 + config_size`, not `16 + |root_path| + 1 + config_size`;
a buffer whose record stream sits immediately after the root-path cstring
and an opaque block of `B` bytes decodes to exactly that stream's paths
precisely when its `config_size` field holds `|root_path| + 1 + B`
(which is how `encodeDB` writes it). -/
theorem C4_record_stream_offset (root blob : Bytes) (version require_vis : Nat)
    (recs : List (Bytes × List Bytes))
    (hroot : ∀ b ∈ root, b ≠ 0)
    (hsz : root.length + 1 + blob.length < 2 ^ 32)
    (hvalid : validRecs recs)
    (hnd : (expectedPaths recs).Nodup) :
    parse_mlocate_db (encodeDB root blob version require_vis recs) =
      .ok ⟨expectedPaths recs, root, version⟩ :=
  parse_encodeDB root blob version require_vis recs hroot hsz hvalid hnd

/-- Witness for the amended C4: root `"r"`, a 2-byte opaque config
block, one directory `"/x"` with no children. -/
theorem C4_record_stream_offset_witness :
    parse_mlocate_db (encodeDB [114] [9, 9] 1 0 [([47, 120], [])]) =
      .ok ⟨[[47, 120]], [114], 1⟩ :=
  C4_record_stream_offset [114] [9, 9] 1 0 [([47, 120], [])]
    (by decide) (by decide) (by decide) (by decide)

/-- C9: a child entry named `n` under the directory path `"/"` (byte 47)
yields the full path `"/" ++ n` with no extra separator, while under any
other directory path `d` it yields `d ++ "/" ++ n`.  Stated both for the
path-construction step itself (`mkFullPath`) and end-to-end for the
decoder on a one-record synthetic buffer. -/
theorem C9_root_normalization :
    (∀ n : Bytes, mkFullPath [47] n = [47] ++ n) ∧
    (∀ d n : Bytes, d ≠ [47] → mkFullPath d n = d ++ [47] ++ n) ∧
    (∀ (root blob n : Bytes) (version require_vis : Nat),
      (∀ b ∈ root, b ≠ 0) → root.length + 1 + blob.length < 2 ^ 32 →
      (∀ b ∈ n, b ≠ 0) → n ≠ [] →
      parse_mlocate_db (encodeDB root blob version require_vis [([47], [n])]) =
        .ok ⟨[[47], [47] ++ n], root, version⟩) ∧
    (∀ (root blob d n : Bytes) (version require_vis : Nat),
      (∀ b ∈ root, b ≠ 0) → root.length + 1 + blob.length < 2 ^ 32 →
      (∀ b ∈ d, b ≠ 0) → (∀ b ∈ n, b ≠ 0) → d ≠ [47] →
      parse_mlocate_db (encodeDB root blob version require_vis [(d, [n])]) =
        .ok ⟨[d, d ++ [47] ++ n], root, version⟩) := by
  have hslash : ∀ n : Bytes, mkFullPath [47] n = [47] ++ n := by
    intro n
    simp [mkFullPath]
  have hother : ∀ d n : Bytes, d ≠ [47] → mkFullPath d n = d ++ [47] ++ n := by
    intro d n hd
    simp [mkFullPath, hd]
  refine ⟨hslash, hother, ?_, ?_⟩
  · intro root blob n version require_vis hroot hsz hn hne
    have hexp : expectedPaths [([47], [n])] = [[47], [47] ++ n] := by
      simp [expectedPaths, hslash]
    have hnd : (expectedPaths [([47], [n])]).Nodup := by
      rw [hexp]
      refine List.nodup_cons.mpr ⟨?_, List.nodup_singleton _⟩
      intro hmem
      rw [List.mem_singleton] at hmem
      have hlen := congrArg List.length hmem
      simp at hlen
      exact hne hlen
    have hv : validRecs [([47], [n])] := by
      intro r hr
      rw [List.mem_singleton] at hr
      subst hr
      refine ⟨?_, ?_⟩
      · intro b hb
        simp at hb
        subst hb
        decide
      · intro m hm
        simp at hm
        subst hm
        exact hn
    have := parse_encodeDB root blob version require_vis [([47], [n])]
      hroot hsz hv hnd
    rw [hexp] at this
    exact this
  · intro root blob d n version require_vis hroot hsz hd hn hdne
    have hexp : expectedPaths [(d, [n])] = [d, d ++ [47] ++ n] := by
      simp [expectedPaths, hother d n hdne]
    have hnd : (expectedPaths [(d, [n])]).Nodup := by
      rw [hexp]
      refine List.nodup_cons.mpr ⟨?_, List.nodup_singleton _⟩
      intro hmem
      rw [List.mem_singleton] at hmem
      have := congrArg List.length hmem
      simp at this
    have hv : validRecs [(d, [n])] := by
      intro r hr
      rw [List.mem_singleton] at hr
      subst hr
      refine ⟨hd, ?_⟩
      intro m hm
      simp at hm
      subst hm
      exact hn
    have := parse_encodeDB root blob version require_vis [(d, [n])]
      hroot hsz hv hnd
    rw [hexp] at this
    exact this

/-- Witness for C9: `"etc"` under `"/"` gives `"/etc"` (bytes
`[47, 101, 116, 99]`), and `"b"` under `"/a"` gives `"/a/b"`. -/
theorem C9_root_normalization_witness :
    mkFullPath [47] [101, 116, 99] = [47] ++ [101, 116, 99] ∧
    parse_mlocate_db (encodeDB [] [] 0 1 [([47], [[101, 116, 99]])]) =
      .ok ⟨[[47], [47] ++ [101, 116, 99]], [], 0⟩ ∧
    parse_mlocate_db (encodeDB [] [] 0 1 [([47, 97], [[98]])]) =
      .ok ⟨[[47, 97], [47, 97] ++ [47] ++ [98]], [], 0⟩ :=
  ⟨C9_root_normalization.1 [101, 116, 99],
    C9_root_normalization.2.2.1 [] [] [101, 116, 99] 0 1
      (by decide) (by decide) (by decide) (by decide),
    C9_root_normalization.2.2.2 [] [] [47, 97] [98] 0 1
      (by decide) (by decide) (by decide) (by decide) (by decide)⟩

/-- C6: any buffer whose first 8 bytes are not exactly the magic
signature `0x00 'm' 'l' 'o' 'c' 'a' 't' 'e'` is rejected with
`invalidFormat` and no paths; the result is produced before any further
field of the buffer is read (the equation holds whatever the remaining
bytes are). -/
theorem C6_magic_rejection (data : Bytes)
    (h : slice data 0 8 ≠ MLOCATE_MAGIC) :
    parse_mlocate_db data = .error .invalidFormat := by
  simp only [parse_mlocate_db]
  rw [if_pos h]

/-- Witness for C6: a buffer starting with 8 wrong bytes (followed by a
perfectly valid-looking remainder) is rejected. -/
theorem C6_magic_rejection_witness :
    parse_mlocate_db ([1, 109, 108, 111, 99, 97, 116, 101] ++ [0, 0, 0, 1]
        ++ [1, 0, 0, 0] ++ [0] ++ List.replicate 16 0 ++ [47, 0] ++ [2]) =
      .error .invalidFormat :=
  C6_magic_rejection _ (by decide)

theorem readU32BE_isSome {data : Bytes} {pos : Nat}
    (h : pos + 3 < data.length) : ∃ n, readU32BE data pos = some n := by
  unfold readU32BE
  rw [List.get?_eq_get (by omega), List.get?_eq_get (by omega),
    List.get?_eq_get (by omega), List.get?_eq_get h]
  exact ⟨_, rfl⟩

/-- C5: when a null-terminated string field is truncated — no terminator
before the end of the buffer — decoding fails with `corruptRecord`
carrying the byte offset at which the terminator search began, and no
path list (truncated, guessed, or partial) is ever returned.  Stated for
each of the three string fields: the root path (any magic-valid buffer
with no null byte at offset 16 or later), a directory path (a valid
record stream followed by a 16-byte header and terminator-less path
bytes), and an entry name (a valid record stream followed by a record
whose child entry's name bytes never reach a terminator). -/
theorem C5_truncated_string :
    (∀ data : Bytes, slice data 0 8 = MLOCATE_MAGIC → 13 < data.length →
      findNull data 16 = none →
      parse_mlocate_db data = .error (.corruptRecord 16)) ∧
    (∀ (root blob junk : Bytes) (version require_vis : Nat)
        (recs : List (Bytes × List Bytes)),
      (∀ b ∈ root, b ≠ 0) → root.length + 1 + blob.length < 2 ^ 32 →
      validRecs recs → (expectedPaths recs).Nodup →
      (∀ b ∈ junk, b ≠ 0) →
      parse_mlocate_db (encodeDB root blob version require_vis recs ++
          (List.replicate 16 0 ++ junk)) =
        .error (.corruptRecord
          ((encodeDB root blob version require_vis recs).length + 16))) ∧
    (∀ (root blob d junk : Bytes) (version require_vis ty : Nat)
        (recs : List (Bytes × List Bytes)),
      (∀ b ∈ root, b ≠ 0) → root.length + 1 + blob.length < 2 ^ 32 →
      validRecs recs → (expectedPaths recs).Nodup →
      (∀ b ∈ d, b ≠ 0) → ty ≠ END_ENTRY → (∀ b ∈ junk, b ≠ 0) →
      parse_mlocate_db (encodeDB root blob version require_vis recs ++
          (List.replicate 16 0 ++ (d ++ (0 :: ty :: junk)))) =
        .error (.corruptRecord
          ((encodeDB root blob version require_vis recs).length + 16
            + d.length + 2))) := by
  refine ⟨?_, ?_, ?_⟩
  · -- root path truncated
    intro data hm hlen hfind
    obtain ⟨k, hk⟩ := @readU32BE_isSome data 8 (by omega)
    simp [parse_mlocate_db, hm, hk, hfind,
      List.getElem?_eq_getElem (show 12 < data.length by omega),
      List.getElem?_eq_getElem (show 13 < data.length by omega)]
  · -- directory path truncated
    intro root blob junk version require_vis recs hroot hsz hvalid hnd hjunk
    obtain ⟨fuel', seen', heq, hfuel', _⟩ :=
      parse_encodeDB_ext root blob version require_vis recs
        (List.replicate 16 0 ++ junk) hroot hsz hvalid hnd
    set D := encodeDB root blob version require_vis recs with hDdef
    set E := D ++ (List.replicate 16 0 ++ junk) with hEdef
    have hElen : E.length = D.length + 16 + junk.length := by
      rw [hEdef]
      simp
      omega
    have hdropD : E.drop D.length = List.replicate 16 0 ++ junk :=
      List.drop_left _ _
    have hdrop16 : E.drop (D.length + 16) = junk := by
      rw [drop_add, hdropD]
      exact List.drop_left' (by simp)
    have hfind : findNull E (D.length + 16) = none :=
      findNull_none (by rw [hdrop16]; exact hjunk)
    obtain ⟨f, rfl⟩ : ∃ f, fuel' = f + 1 := ⟨fuel' - 1, by omega⟩
    rw [readDirs_step_err (by omega) hfind] at heq
    exact heq
  · -- entry name truncated
    intro root blob d junk version require_vis ty recs hroot hsz hvalid hnd
      hd hty hjunk
    obtain ⟨fuel', seen', heq, hfuel', _⟩ :=
      parse_encodeDB_ext root blob version require_vis recs
        (List.replicate 16 0 ++ (d ++ (0 :: ty :: junk))) hroot hsz hvalid hnd
    set D := encodeDB root blob version require_vis recs with hDdef
    set E := D ++ (List.replicate 16 0 ++ (d ++ (0 :: ty :: junk))) with hEdef
    have hElen : E.length = D.length + 16 + d.length + 2 + junk.length := by
      rw [hEdef]
      simp
      omega
    have hdropD : E.drop D.length = List.replicate 16 0 ++ (d ++ (0 :: ty :: junk)) :=
      List.drop_left _ _
    have hdrop16 : E.drop (D.length + 16) = d ++ (0 :: ty :: junk) := by
      rw [drop_add, hdropD]
      exact List.drop_left' (by simp)
    have hfind : findNull E (D.length + 16) = some (D.length + 16 + d.length) :=
      findNull_of_drop hdrop16 hd
    have hslice : slice E (D.length + 16) (D.length + 16 + d.length) = d := by
      apply slice_of_drop
      rw [hdrop16]
    have hdropq : E.drop (D.length + 16 + d.length + 1) = ty :: junk := by
      rw [show D.length + 16 + d.length + 1 = (D.length + 16) + (d.length + 1) by omega,
        drop_add, hdrop16,
        show d ++ (0 :: ty :: junk) = (d ++ [0]) ++ (ty :: junk) by simp]
      exact List.drop_left' (by simp)
    have hget : E.get? (D.length + 16 + d.length + 1) = some ty :=
      get?_of_drop hdropq
    have hdropq1 : E.drop (D.length + 16 + d.length + 1 + 1) = junk := by
      rw [drop_add, hdropq]
      rfl
    have hfind2 : findNull E (D.length + 16 + d.length + 1 + 1) = none :=
      findNull_none (by rw [hdropq1]; exact hjunk)
    obtain ⟨f, rfl⟩ : ∃ f, fuel' = f + 1 := ⟨fuel' - 1, by omega⟩
    rw [readDirs_step (by omega) hfind, hslice] at heq
    have hlt3 : D.length + 16 + d.length + 1 < E.length := by omega
    rw [readEntries_step_err hlt3 hget hty hfind2] at heq
    rw [show D.length + 16 + d.length + 1 + 1 = D.length + 16 + d.length + 2
      by omega] at heq
    exact heq

/-- Witness for C5 at three concrete truncated buffers: a magic-valid
buffer whose root path never terminates, a valid empty database followed
by a record whose directory path `"AB"` never terminates, and one whose
child entry name `"A"` never terminates. -/
theorem C5_truncated_string_witness :
    parse_mlocate_db (MLOCATE_MAGIC ++ [0, 0, 0, 1] ++ [1, 0, 0, 0] ++ [65, 66]) =
      .error (.corruptRecord 16) ∧
    parse_mlocate_db (encodeDB [] [] 1 0 [] ++
        (List.replicate 16 0 ++ [65, 66])) =
      .error (.corruptRecord ((encodeDB [] [] 1 0 []).length + 16)) ∧
    parse_mlocate_db (encodeDB [] [] 1 0 [] ++
        (List.replicate 16 0 ++ ([47] ++ (0 :: 0 :: [65])))) =
      .error (.corruptRecord ((encodeDB [] [] 1 0 []).length + 16 + 1 + 2)) :=
  ⟨C5_truncated_string.1 _ (by decide) (by decide) (by decide),
    C5_truncated_string.2.1 [] [] [65, 66] 1 0 []
      (by decide) (by decide) (by decide) (by decide) (by decide),
    C5_truncated_string.2.2 [] [] [47] [65] 1 0 0 []
      (by decide) (by decide) (by decide) (by decide) (by decide) (by decide)
      (by decide)⟩

/-! ## The record loop depends only on the bytes from a given offset -/

theorem readEntries_stop {data d : Bytes} {fuel pos : Nat}
    {seen acc : List Bytes} (h : data.length ≤ pos) :
    readEntries data d (fuel + 1) pos seen acc = .ok (pos, seen, acc) := by
  simp only [readEntries]
  rw [dif_neg (by omega)]

theorem findNull_ge {data : Bytes} {pos j : Nat}
    (h : findNull data pos = some j) : pos ≤ j := by
  unfold findNull at h
  cases hf : (data.drop pos).findIdx? (fun b => b == 0) with
  | none => rw [hf] at h; exact absurd h (by simp)
  | some i => rw [hf] at h; simp at h; omega

theorem readEntries_pos_le (data d : Bytes) :
    ∀ (fuel pos : Nat) (seen acc : List Bytes) (pos' : Nat)
      (seen' acc' : List Bytes),
      readEntries data d fuel pos seen acc = .ok (pos', seen', acc') →
      pos ≤ pos' := by
  intro fuel
  induction fuel with
  | zero =>
    intro pos seen acc pos' seen' acc' h
    simp only [readEntries] at h
    cases h
    exact le_refl _
  | succ f ih =>
    intro pos seen acc pos' seen' acc' h
    by_cases hlt : pos < data.length
    · obtain ⟨b, hb⟩ : ∃ b, data.get? pos = some b :=
        ⟨_, List.get?_eq_get hlt⟩
      by_cases hty : b = END_ENTRY
      · rw [hty] at hb
        rw [readEntries_step_end hlt hb] at h
        cases h
        omega
      · cases hfn : findNull data (pos + 1) with
        | none =>
          rw [readEntries_step_err hlt hb hty hfn] at h
          cases h
        | some nIdx =>
          rw [readEntries_step_entry hlt hb hty hfn] at h
          have h1 := findNull_ge hfn
          have h2 := ih _ _ _ _ _ _ h
          omega
    · rw [readEntries_stop (by omega)] at h
      cases h
      exact le_refl _

theorem drop_eq_of_ge {b1 b2 : Bytes} {s pos : Nat}
    (hdrop : b1.drop s = b2.drop s) (hpos : s ≤ pos) :
    b1.drop pos = b2.drop pos := by
  rw [show pos = s + (pos - s) by omega, drop_add, drop_add, hdrop]

theorem get?_eq_of_drop_eq {b1 b2 : Bytes} {s pos : Nat}
    (hdrop : b1.drop s = b2.drop s) (hpos : s ≤ pos) :
    b1.get? pos = b2.get? pos := by
  have h := drop_eq_of_ge hdrop hpos
  have h1 := List.getElem?_drop b1 pos 0
  have h2 := List.getElem?_drop b2 pos 0
  rw [h] at h1
  rw [List.get?_eq_getElem?, List.get?_eq_getElem?, Nat.add_zero] at *
  rw [← h1, ← h2]

theorem findNull_congr {b1 b2 : Bytes} {s pos : Nat}
    (hdrop : b1.drop s = b2.drop s) (hpos : s ≤ pos) :
    findNull b1 pos = findNull b2 pos := by
  unfold findNull
  rw [drop_eq_of_ge hdrop hpos]

theorem slice_congr {b1 b2 : Bytes} {s pos j : Nat}
    (hdrop : b1.drop s = b2.drop s) (hpos : s ≤ pos) :
    slice b1 pos j = slice b2 pos j := by
  rw [slice_eq_drop_take, slice_eq_drop_take, drop_eq_of_ge hdrop hpos]

/-- The child-entry loop gives the same outcome on two buffers of the
same length that agree from offset `s` on, when started at or after
`s`. -/
theorem readEntries_congr (b1 b2 d : Bytes) (s : Nat)
    (hlen : b1.length = b2.length) (hdrop : b1.drop s = b2.drop s) :
    ∀ (fuel pos : Nat) (seen acc : List Bytes), s ≤ pos →
      readEntries b1 d fuel pos seen acc = readEntries b2 d fuel pos seen acc := by
  intro fuel
  induction fuel with
  | zero => intro pos seen acc hpos; rfl
  | succ f ih =>
    intro pos seen acc hpos
    by_cases hlt : pos < b1.length
    · have hlt2 : pos < b2.length := by omega
      obtain ⟨b, hb⟩ : ∃ b, b1.get? pos = some b :=
        ⟨_, List.get?_eq_get hlt⟩
      have hb2 : b2.get? pos = some b := by
        rw [← get?_eq_of_drop_eq hdrop hpos]
        exact hb
      by_cases hty : b = END_ENTRY
      · rw [hty] at hb hb2
        rw [readEntries_step_end hlt hb, readEntries_step_end hlt2 hb2]
      · have hfn2 := findNull_congr hdrop (show s ≤ pos + 1 by omega)
        cases hfn : findNull b1 (pos + 1) with
        | none =>
          rw [readEntries_step_err hlt hb hty hfn,
            readEntries_step_err hlt2 hb2 hty (hfn ▸ hfn2.symm)]
        | some nIdx =>
          rw [readEntries_step_entry hlt hb hty hfn,
            readEntries_step_entry hlt2 hb2 hty (hfn ▸ hfn2.symm)]
          rw [slice_congr hdrop (show s ≤ pos + 1 by omega)]
          exact ih (nIdx + 1) _ _ (by have := findNull_ge hfn; omega)
    · rw [readEntries_stop (by omega), readEntries_stop (by omega)]

/-- The directory-record loop gives the same path list on two buffers of
the same length that agree from offset `s` on, when started at or after
`s`. -/
theorem readDirs_congr (b1 b2 : Bytes) (s : Nat)
    (hlen : b1.length = b2.length) (hdrop : b1.drop s = b2.drop s) :
    ∀ (fuel pos : Nat) (seen acc : List Bytes), s ≤ pos →
      readDirs b1 fuel pos seen acc = readDirs b2 fuel pos seen acc := by
  intro fuel
  induction fuel with
  | zero => intro pos seen acc hpos; rfl
  | succ f ih =>
    intro pos seen acc hpos
    by_cases hlt : pos < b1.length
    · by_cases h16 : pos + 16 ≤ b1.length
      · have hfn2 := findNull_congr hdrop (show s ≤ pos + 16 by omega)
        cases hfn : findNull b1 (pos + 16) with
        | none =>
          rw [readDirs_step_err h16 hfn,
            readDirs_step_err (by omega) (hfn ▸ hfn2.symm)]
        | some nIdx =>
          rw [readDirs_step h16 hfn,
            readDirs_step (by omega) (hfn ▸ hfn2.symm)]
          rw [slice_congr hdrop (show s ≤ pos + 16 by omega)]
          rw [← hlen]
          rw [readEntries_congr b1 b2 (slice b2 (pos + 16) nIdx) s hlen hdrop
            (b1.length + 1) (nIdx + 1) _ _
            (by have := findNull_ge hfn; omega)]
          cases hres : readEntries b2 (slice b2 (pos + 16) nIdx) (b1.length + 1)
              (nIdx + 1)
              (insertPath seen acc (slice b2 (pos + 16) nIdx)).1
              (insertPath seen acc (slice b2 (pos + 16) nIdx)).2 with
          | error e => rfl
          | ok res =>
            obtain ⟨pos', seen', acc'⟩ := res
            have hple : nIdx + 1 ≤ pos' := by
              have := readEntries_pos_le b2 _ _ _ _ _ _ _ _ hres
              exact this
            exact ih pos' seen' acc' (by have := findNull_ge hfn; omega)
      · rw [readDirs_stop_short hlt (by omega),
          readDirs_stop_short (by omega) (by omega)]
    · rw [readDirs_at_end (by omega), readDirs_at_end (by omega)]

/-- Inverting a successful parse: the magic matched, the header fields
were read, and the directory loop starting at the jump target
`8 + 4 + 4 + config_size` produced the returned path list. -/
theorem parse_ok_inversion {data : Bytes} {r : Decoded}
    (h : parse_mlocate_db data = .ok r) :
    slice data 0 8 = MLOCATE_MAGIC ∧
    ∃ K nullIdx,
      readU32BE data 8 = some K ∧
      findNull data 16 = some nullIdx ∧
      readDirs data (data.length + 1) (8 + 4 + 4 + K) [] [] = .ok r.paths := by
  simp only [parse_mlocate_db] at h
  split at h
  next hm => exact Except.noConfusion h
  next hm =>
    rw [not_ne_iff] at hm
    split at h
    next => exact Except.noConfusion h
    next K hK =>
      split at h
      next => exact Except.noConfusion h
      next version hver =>
        split at h
        next => exact Except.noConfusion h
        next rv hrv =>
          split at h
          next => exact Except.noConfusion h
          next nullIdx hnull =>
            split at h
            next e herr => exact Except.noConfusion h
            next paths hpaths =>
              obtain rfl := Except.ok.inj h
              exact ⟨hm, K, nullIdx, hK, hnull, hpaths⟩

/-- C3: the first directory record is read from the fixed offset
`16 + config_size`, regardless of the root path's length or content: two
buffers agreeing on their first 16 bytes (hence on `config_size = K`) and
on every byte from offset `16 + K` on — but free to differ in the
root-path region in between — decode to identical path lists whenever
both decodes succeed. -/
theorem C3_config_block_skip (b1 b2 : Bytes) (K : Nat) (r1 r2 : Decoded)
    (htake : b1.take 16 = b2.take 16)
    (hK : readU32BE b1 8 = some K)
    (hlen1 : 16 + K ≤ b1.length)
    (hlen2 : 16 + K ≤ b2.length)
    (hdrop : b1.drop (16 + K) = b2.drop (16 + K))
    (hp1 : parse_mlocate_db b1 = .ok r1)
    (hp2 : parse_mlocate_db b2 = .ok r2) :
    r1.paths = r2.paths := by
  obtain ⟨hm1, K1, n1, hK1, hn1, hd1⟩ := parse_ok_inversion hp1
  obtain ⟨hm2, K2, n2, hK2, hn2, hd2⟩ := parse_ok_inversion hp2
  have hgetlow : ∀ i, i < 16 → b1.get? i = b2.get? i := by
    intro i hi
    rw [List.get?_eq_getElem?, List.get?_eq_getElem?,
      ← List.getElem?_take_of_lt (l := b1) hi, htake,
      List.getElem?_take_of_lt (l := b2) hi]
  have hU2 : readU32BE b2 8 = some K := by
    unfold readU32BE at hK ⊢
    rw [← hgetlow 8 (by omega), ← hgetlow (8 + 1) (by omega),
      ← hgetlow (8 + 2) (by omega), ← hgetlow (8 + 3) (by omega)]
    exact hK
  have hK1eq : K1 = K := by
    rw [hK1] at hK
    exact Option.some.inj hK
  have hK2eq : K2 = K := by
    rw [hK2] at hU2
    exact Option.some.inj hU2
  rw [hK1eq] at hd1
  rw [hK2eq] at hd2
  have hleneq : b1.length = b2.length := by
    have e := congrArg List.length hdrop
    rw [length_drop_eq, length_drop_eq] at e
    omega
  have hcong := readDirs_congr b1 b2 (16 + K) hleneq hdrop
    (b1.length + 1) (8 + 4 + 4 + K) [] [] (by omega)
  rw [hd1, hleneq, hd2] at hcong
  exact Except.ok.inj hcong

/-- Witness for C3: two buffers with identical 16-byte headers
(`config_size = 3`), roots `"AB"` and `"Z"` inside the 3-byte config
region, and an identical record stream from offset 19 on; both decode
successfully and their path lists agree. -/
theorem C3_config_block_skip_witness :
    parse_mlocate_db (MLOCATE_MAGIC ++ [0, 0, 0, 3] ++ [1, 0, 0, 0]
        ++ [65, 66, 0] ++ List.replicate 16 0 ++ [47, 0] ++ [2]) =
      .ok ⟨[[47]], [65, 66], 1⟩ ∧
    parse_mlocate_db (MLOCATE_MAGIC ++ [0, 0, 0, 3] ++ [1, 0, 0, 0]
        ++ [90, 0, 7] ++ List.replicate 16 0 ++ [47, 0] ++ [2]) =
      .ok ⟨[[47]], [90], 1⟩ ∧
    ([[47]] : List Bytes) = [[47]] :=
  ⟨by decide, by decide,
    C3_config_block_skip
      (MLOCATE_MAGIC ++ [0, 0, 0, 3] ++ [1, 0, 0, 0]
        ++ [65, 66, 0] ++ List.replicate 16 0 ++ [47, 0] ++ [2])
      (MLOCATE_MAGIC ++ [0, 0, 0, 3] ++ [1, 0, 0, 0]
        ++ [90, 0, 7] ++ List.replicate 16 0 ++ [47, 0] ++ [2])
      3 ⟨[[47]], [65, 66], 1⟩ ⟨[[47]], [90], 1⟩
      (by decide) (by decide) (by decide) (by decide) (by decide)
      (by decide) (by decide)⟩

/-! ## Matcher lemmas -/

theorem limitReached_false_of_le_zero {limit : Option Int} (n : Nat)
    (h : ∀ l, limit = some l → l = 0) : limitReached limit n = false := by
  cases limit with
  | none => rfl
  | some l =>
    have := h l rfl
    simp [limitReached, this]

/-- Without an effective cap (no limit, or limit 0) the scan appends every
matching path, in order. -/
theorem scanLoop_no_cap (m : Bytes → Bool) (limit : Option Int)
    (h : ∀ n, limitReached limit n = false) :
    ∀ (ps acc : List Bytes), scanLoop m limit ps acc = acc ++ ps.filter m := by
  intro ps
  induction ps with
  | nil => intro acc; simp [scanLoop]
  | cons p ps ih =>
    intro acc
    by_cases hm : m p
    · rw [scanLoop, if_pos hm, h, ih]
      simp [List.filter_cons, hm]
    · rw [scanLoop, if_neg hm, ih]
      simp [List.filter_cons, hm]

theorem limitReached_some_iff (l : Int) (hl : 1 ≤ l) (n : Nat) :
    limitReached (some l) n = true ↔ l.toNat ≤ n := by
  simp [limitReached]
  omega

/-- With a positive cap `l` the scan stops at the cap: starting from an
accumulator below the cap it returns the accumulator extended by the
earliest matches up to the cap. -/
theorem scanLoop_cap (m : Bytes → Bool) (l : Int) (hl : 1 ≤ l) :
    ∀ (ps acc : List Bytes), acc.length < l.toNat →
      scanLoop m (some l) ps acc =
        acc ++ (ps.filter m).take (l.toNat - acc.length) := by
  intro ps
  induction ps with
  | nil => intro acc hacc; simp [scanLoop]
  | cons p ps ih =>
    intro acc hacc
    by_cases hm : m p
    · rw [scanLoop, if_pos hm]
      by_cases hcap : l.toNat ≤ acc.length + 1
      · have hreach : limitReached (some l) (acc ++ [p]).length = true := by
          rw [limitReached_some_iff l hl]
          simp
          omega
        rw [hreach]
        simp only [if_true]
        have : l.toNat - acc.length = 1 := by omega
        simp [List.filter_cons, hm, this]
      · have hreach : limitReached (some l) (acc ++ [p]).length = false := by
          rw [Bool.eq_false_iff]
          intro hcon
          rw [limitReached_some_iff l hl] at hcon
          simp at hcon
          omega
        rw [hreach]
        simp only [Bool.false_eq_true, if_false]
        rw [ih (acc ++ [p]) (by simp; omega)]
        have : l.toNat - acc.length = (l.toNat - (acc.length + 1)) + 1 := by omega
        simp [List.filter_cons, hm, this]
    · rw [scanLoop, if_neg hm, ih acc hacc]
      simp [List.filter_cons, hm]

/-- C7: with a (positive) limit `l` set, `search_paths` returns exactly
the first `l` matches in the input's insertion order — the limited result
is the `take l` of the unlimited one, for every mode, pattern and case
flag — and in particular never more than `l` results.  The scan
short-circuits at the cap, which is what the `take` of the
insertion-ordered match list expresses. -/
theorem C7_limit_cap (rx : Bool → Bytes → Option (Bytes → Bool))
    (paths : List Bytes) (pattern : Bytes) (ic g r : Bool) (l : Int)
    (hl : 1 ≤ l) :
    search_paths rx paths pattern ic g r (some l) =
      Except.map (List.take l.toNat)
        (search_paths rx paths pattern ic g r none) ∧
    ∀ res, search_paths rx paths pattern ic g r (some l) = .ok res →
      res.length ≤ l.toNat := by
  have hscan : ∀ m : Bytes → Bool,
      scanLoop m (some l) paths [] = (scanLoop m none paths []).take l.toNat := by
    intro m
    rw [scanLoop_no_cap m none (fun n => rfl),
      scanLoop_cap m l hl paths [] (by simp; omega)]
    simp
  constructor
  · unfold search_paths
    by_cases hr : r
    · rw [if_pos hr, if_pos hr]
      cases hc : rx ic pattern with
      | none => rfl
      | some m => simp [Except.map, hscan m]
    · rw [if_neg hr, if_neg hr]
      by_cases hg : g
      · rw [if_pos hg, if_pos hg]
        simp [Except.map, hscan]
      · rw [if_neg hg, if_neg hg]
        simp [Except.map, hscan]
  · intro res hres
    unfold search_paths at hres
    by_cases hr : r
    · rw [if_pos hr] at hres
      cases hc : rx ic pattern with
      | none => rw [hc] at hres; exact Except.noConfusion hres
      | some m =>
        rw [hc] at hres
        have := Except.ok.inj hres
        rw [← this, hscan m]
        exact List.length_take_le _ _
    · rw [if_neg hr] at hres
      by_cases hg : g
      · rw [if_pos hg] at hres
        have := Except.ok.inj hres
        rw [← this, hscan]
        exact List.length_take_le _ _
      · rw [if_neg hg] at hres
        have := Except.ok.inj hres
        rw [← this, hscan]
        exact List.length_take_le _ _

/-- Witness for C7: case-sensitive substring search for `"home"` over
`["/home/alice/report.txt", "/home/bob/notes.md", "/etc/passwd"]` with
`limit = 1` returns only `"/home/alice/report.txt"` (the unlimited search
returns the first two paths, and the limited result is its `take 1`). -/
theorem C7_limit_cap_witness :
    search_paths (fun _ _ => none)
      [[47, 104, 111, 109, 101, 47, 97, 108, 105, 99, 101, 47, 114, 101,
          112, 111, 114, 116, 46, 116, 120, 116],
        [47, 104, 111, 109, 101, 47, 98, 111, 98, 47, 110, 111, 116, 101,
          115, 46, 109, 100],
        [47, 101, 116, 99, 47, 112, 97, 115, 115, 119, 100]]
      [104, 111, 109, 101] false false false (some 1) =
      .ok [[47, 104, 111, 109, 101, 47, 97, 108, 105, 99, 101, 47, 114,
        101, 112, 111, 114, 116, 46, 116, 120, 116]] ∧
    (1 : Int) ≤ 1 ∧
    search_paths (fun _ _ => none)
      [[47, 104, 111, 109, 101, 47, 97, 108, 105, 99, 101, 47, 114, 101,
          112, 111, 114, 116, 46, 116, 120, 116],
        [47, 104, 111, 109, 101, 47, 98, 111, 98, 47, 110, 111, 116, 101,
          115, 46, 109, 100],
        [47, 101, 116, 99, 47, 112, 97, 115, 115, 119, 100]]
      [104, 111, 109, 101] false false false (some 1) =
      Except.map (List.take (1 : Int).toNat)
        (search_paths (fun _ _ => none)
          [[47, 104, 111, 109, 101, 47, 97, 108, 105, 99, 101, 47, 114,
              101, 112, 111, 114, 116, 46, 116, 120, 116],
            [47, 104, 111, 109, 101, 47, 98, 111, 98, 47, 110, 111, 116,
              101, 115, 46, 109, 100],
            [47, 101, 116, 99, 47, 112, 97, 115, 115, 119, 100]]
          [104, 111, 109, 101] false false false none) :=
  ⟨by decide, by decide,
    (C7_limit_cap (fun _ _ => none)
      [[47, 104, 111, 109, 101, 47, 97, 108, 105, 99, 101, 47, 114, 101,
          112, 111, 114, 116, 46, 116, 120, 116],
        [47, 104, 111, 109, 101, 47, 98, 111, 98, 47, 110, 111, 116, 101,
          115, 46, 109, 100],
        [47, 101, 116, 99, 47, 112, 97, 115, 115, 119, 100]]
      [104, 111, 109, 101] false false false 1 (by decide)).1⟩

/-- C8: in regex mode a pattern the engine cannot compile makes
`search_paths` fail with `invalidPattern` before any path is examined —
the error is produced uniformly for every path list, and no results are
returned — while a pattern that does compile makes the scan succeed on
every path list (per-path matching never errors, the result is always
`ok`). -/
theorem C8_regex_fail_fast (rx : Bool → Bytes → Option (Bytes → Bool))
    (pattern : Bytes) (ic g : Bool) (limit : Option Int) :
    (rx ic pattern = none →
      ∀ paths : List Bytes,
        search_paths rx paths pattern ic g true limit = .error .invalidPattern) ∧
    (∀ m, rx ic pattern = some m →
      ∀ paths : List Bytes,
        search_paths rx paths pattern ic g true limit =
          .ok (scanLoop m limit paths [])) := by
  constructor
  · intro hc paths
    unfold search_paths
    rw [if_pos rfl, hc]
  · intro m hc paths
    unfold search_paths
    rw [if_pos rfl, hc]

/-- Witness for C8: an engine that rejects the pattern `"("` (byte 40)
and accepts everything else; searching with `"("` fails with
`invalidPattern` on a nonempty path list, and a compiling pattern
succeeds. -/
theorem C8_regex_fail_fast_witness :
    ((fun (_ : Bool) (p : Bytes) =>
        if p = [40] then none else some (fun _ => true)) true [40] =
      (none : Option (Bytes → Bool))) ∧
    search_paths
      (fun (_ : Bool) (p : Bytes) =>
        if p = [40] then none else some (fun _ => true))
      [[47, 97]] [40] true false true none = .error .invalidPattern :=
  ⟨by simp,
    (C8_regex_fail_fast
      (fun (_ : Bool) (p : Bytes) =>
        if p = [40] then none else some (fun _ => true))
      [40] true false none).1 (by simp) [[47, 97]]⟩

/-- C10: a limit of 0 behaves exactly like no limit at all — for every
engine, path list, pattern, mode and case flag the two calls return the
same result — because the Python cap check `if limit and ...` only fires
for a truthy (nonzero) limit. -/
theorem C10_zero_limit_unset (rx : Bool → Bytes → Option (Bytes → Bool))
    (paths : List Bytes) (pattern : Bytes) (ic g r : Bool) :
    search_paths rx paths pattern ic g r (some 0) =
      search_paths rx paths pattern ic g r none := by
  have hz : ∀ (m : Bytes → Bool) (acc : List Bytes),
      scanLoop m (some 0) paths acc = scanLoop m none paths acc := by
    intro m acc
    rw [scanLoop_no_cap m (some 0)
        (fun n => limitReached_false_of_le_zero n
          (fun l hl => by cases hl; rfl)),
      scanLoop_no_cap m none (fun n => rfl)]
  unfold search_paths
  by_cases hr : r
  · rw [if_pos hr, if_pos hr]
    cases hc : rx ic pattern with
    | none => rfl
    | some m => exact congrArg Except.ok (hz m [])
  · rw [if_neg hr, if_neg hr]
    by_cases hg : g
    · rw [if_pos hg, if_pos hg]
      exact congrArg Except.ok (hz _ [])
    · rw [if_neg hg, if_neg hg]
      exact congrArg Except.ok (hz _ [])

/-! ## Deduplication against the raw occurrence stream

`readEntriesAll` / `readDirsAll` / `parse_all_occurrences` are the same
parser with the `if ... not in seen` guards removed: they return every
path occurrence the byte stream encodes, in stream order.  They exist
only to state the deduplication invariant: the real parser's output is
the first-occurrence deduplication (`keepFirst`) of this raw stream. -/

/-- The child-entry loop without deduplication: every constructed full
path, in stream order. -/
def readEntriesAll (data : Bytes) (dir : Bytes) :
    Nat → Nat → Except ParseError (Nat × List Bytes)
  | 0, pos => .ok (pos, [])
  | fuel+1, pos =>
    if h : pos < data.length then
      let ty := data.get ⟨pos, h⟩
      if ty = END_ENTRY then .ok (pos + 1, [])
      else
        match findNull data (pos + 1) with
        | none => .error (.corruptRecord (pos + 1))
        | some nullIdx =>
          match readEntriesAll data dir fuel (nullIdx + 1) with
          | .error e => .error e
          | .ok (pos', rest) =>
            .ok (pos', mkFullPath dir (slice data (pos + 1) nullIdx) :: rest)
    else .ok (pos, [])

/-- The directory-record loop without deduplication. -/
def readDirsAll (data : Bytes) :
    Nat → Nat → Except ParseError (List Bytes)
  | 0, _ => .ok []
  | fuel+1, pos =>
    if pos < data.length then
      if pos + 16 > data.length then .ok []
      else
        match findNull data (pos + 16) with
        | none => .error (.corruptRecord (pos + 16))
        | some nullIdx =>
          match readEntriesAll data (slice data (pos + 16) nullIdx)
              (data.length + 1) (nullIdx + 1) with
          | .error e => .error e
          | .ok (pos', entries) =>
            match readDirsAll data fuel pos' with
            | .error e => .error e
            | .ok rest =>
              .ok (slice data (pos + 16) nullIdx :: (entries ++ rest))
    else .ok []

/-- The parser without deduplication: identical header handling, raw
occurrence stream as path list. -/
def parse_all_occurrences (data : Bytes) : Except ParseError Decoded :=
  if slice data 0 8 ≠ MLOCATE_MAGIC then .error .invalidFormat
  else
    match readU32BE data 8 with
    | none => .error (.unexpectedEOF 8)
    | some config_size =>
      match data.get? 12 with
      | none => .error (.unexpectedEOF 12)
      | some version =>
        match data.get? 13 with
        | none => .error (.unexpectedEOF 13)
        | some _require_vis =>
          match findNull data 16 with
          | none => .error (.corruptRecord 16)
          | some nullIdx =>
            let root_path := slice data 16 nullIdx
            match readDirsAll data (data.length + 1) (8 + 4 + 4 + config_size) with
            | .error e => .error e
            | .ok paths => .ok ⟨paths, root_path, version⟩

/-- First-occurrence deduplication, stated independently of the parser's
`seen` set: an element is kept iff it differs from every element
scanned before it, so each value appears once, at the position of its
first occurrence, and insertion order is preserved. -/
def keepFirstAux (prev : List Bytes) : List Bytes → List Bytes
  | [] => []
  | p :: ps =>
    if p ∈ prev then keepFirstAux (p :: prev) ps
    else p :: keepFirstAux (p :: prev) ps

/-- First-occurrence deduplication of a whole list. -/
def keepFirst (l : List Bytes) : List Bytes := keepFirstAux [] l

theorem keepFirstAux_congr {prev1 prev2 : List Bytes}
    (h : ∀ p, p ∈ prev1 ↔ p ∈ prev2) :
    ∀ l, keepFirstAux prev1 l = keepFirstAux prev2 l := by
  intro l
  induction l generalizing prev1 prev2 with
  | nil => rfl
  | cons p ps ih =>
    have hmem : (p ∈ prev1) = (p ∈ prev2) := propext (h p)
    have hcons : ∀ q, q ∈ p :: prev1 ↔ q ∈ p :: prev2 := by
      intro q
      simp [h q]
    by_cases hp : p ∈ prev1
    · rw [keepFirstAux, keepFirstAux, if_pos hp, if_pos ((h p).mp hp), ih hcons]
    · rw [keepFirstAux, keepFirstAux, if_neg hp,
        if_neg (fun hc => hp ((h p).mpr hc)), ih hcons]

theorem keepFirstAux_nodup :
    ∀ (l prev : List Bytes),
      (keepFirstAux prev l).Nodup ∧ ∀ p ∈ keepFirstAux prev l, p ∉ prev := by
  intro l
  induction l with
  | nil => intro prev; exact ⟨List.nodup_nil, by simp [keepFirstAux]⟩
  | cons p ps ih =>
    intro prev
    by_cases hp : p ∈ prev
    · rw [keepFirstAux, if_pos hp]
      obtain ⟨hnd, hmem⟩ := ih (p :: prev)
      exact ⟨hnd, fun q hq hqp =>
        hmem q hq (List.mem_cons_of_mem p hqp)⟩
    · rw [keepFirstAux, if_neg hp]
      obtain ⟨hnd, hmem⟩ := ih (p :: prev)
      refine ⟨List.nodup_cons.mpr ⟨fun hc => hmem p hc (List.mem_cons_self _ _), hnd⟩, ?_⟩
      intro q hq
      rcases List.mem_cons.mp hq with rfl | hq'
      · exact hp
      · exact fun hc => hmem q hq' (List.mem_cons_of_mem p hc)

theorem keepFirst_nodup (l : List Bytes) : (keepFirst l).Nodup :=
  (keepFirstAux_nodup l []).1

/-- The parser's fold of `insertPath` over an occurrence stream computes
exactly the first-occurrence deduplication appended to the accumulator. -/
theorem foldl_insertPath_eq_keepFirst :
    ∀ (l seen acc : List Bytes), (∀ p, p ∈ seen ↔ p ∈ acc) →
      (l.foldl (fun sa p => insertPath sa.1 sa.2 p) (seen, acc)).2 =
        acc ++ keepFirstAux seen l := by
  intro l
  induction l with
  | nil => intro seen acc hsync; simp [keepFirstAux]
  | cons p ps ih =>
    intro seen acc hsync
    rw [List.foldl_cons, keepFirstAux]
    by_cases hp : p ∈ seen
    · rw [if_pos hp]
      have hins : insertPath seen acc p = (seen, acc) := by
        rw [insertPath, if_pos hp]
      have hcongr : keepFirstAux (p :: seen) ps = keepFirstAux seen ps :=
        keepFirstAux_congr (fun q => by simp; intro hq; exact hq ▸ hp) ps
      rw [hins, ih seen acc hsync, hcongr]
    · rw [if_neg hp]
      have : insertPath seen acc p = (p :: seen, acc ++ [p]) := by
        rw [insertPath, if_neg hp]
      rw [this, ih (p :: seen) (acc ++ [p]) (by intro q; simp [hsync q]; tauto)]
      simp

theorem readEntriesAll_step_end {data d : Bytes} {fuel pos : Nat}
    (hlt : pos < data.length) (hget : data.get? pos = some END_ENTRY) :
    readEntriesAll data d (fuel + 1) pos = .ok (pos + 1, []) := by
  simp only [readEntriesAll]
  rw [dif_pos hlt, get_of_get? hlt hget, if_pos rfl]

theorem readEntriesAll_step_entry {data d : Bytes} {fuel pos : Nat}
    {ty nullIdx : Nat} (hlt : pos < data.length)
    (hget : data.get? pos = some ty) (hty : ty ≠ END_ENTRY)
    (hfind : findNull data (pos + 1) = some nullIdx) :
    readEntriesAll data d (fuel + 1) pos =
      match readEntriesAll data d fuel (nullIdx + 1) with
      | .error e => .error e
      | .ok (pos', rest) =>
        .ok (pos', mkFullPath d (slice data (pos + 1) nullIdx) :: rest) := by
  simp only [readEntriesAll]
  rw [dif_pos hlt, get_of_get? hlt hget, if_neg hty, hfind]

theorem readEntriesAll_step_err {data d : Bytes} {fuel pos : Nat} {ty : Nat}
    (hlt : pos < data.length) (hget : data.get? pos = some ty)
    (hty : ty ≠ END_ENTRY) (hfind : findNull data (pos + 1) = none) :
    readEntriesAll data d (fuel + 1) pos = .error (.corruptRecord (pos + 1)) := by
  simp only [readEntriesAll]
  rw [dif_pos hlt, get_of_get? hlt hget, if_neg hty, hfind]

theorem readEntriesAll_stop {data d : Bytes} {fuel pos : Nat}
    (h : data.length ≤ pos) :
    readEntriesAll data d (fuel + 1) pos = .ok (pos, []) := by
  simp only [readEntriesAll]
  rw [dif_neg (by omega)]

theorem readDirsAll_at_end {data : Bytes} {fuel pos : Nat}
    (h : data.length ≤ pos) : readDirsAll data fuel pos = .ok [] := by
  cases fuel with
  | zero => rfl
  | succ f =>
    simp only [readDirsAll]
    rw [if_neg (by omega)]

theorem readDirsAll_stop_short {data : Bytes} {fuel pos : Nat}
    (h : pos < data.length) (h16 : data.length < pos + 16) :
    readDirsAll data (fuel + 1) pos = .ok [] := by
  simp only [readDirsAll]
  rw [if_pos h, if_pos (by omega)]

theorem readDirsAll_step {data : Bytes} {fuel pos : Nat} {nullIdx : Nat}
    (h16 : pos + 16 ≤ data.length)
    (hfind : findNull data (pos + 16) = some nullIdx) :
    readDirsAll data (fuel + 1) pos =
      match readEntriesAll data (slice data (pos + 16) nullIdx)
          (data.length + 1) (nullIdx + 1) with
      | .error e => .error e
      | .ok (pos', entries) =>
        match readDirsAll data fuel pos' with
        | .error e => .error e
        | .ok rest => .ok (slice data (pos + 16) nullIdx :: (entries ++ rest)) := by
  simp only [readDirsAll]
  rw [if_pos (by omega), if_neg (by omega), hfind]

theorem readDirsAll_step_err {data : Bytes} {fuel pos : Nat}
    (h16 : pos + 16 ≤ data.length)
    (hfind : findNull data (pos + 16) = none) :
    readDirsAll data (fuel + 1) pos = .error (.corruptRecord (pos + 16)) := by
  simp only [readDirsAll]
  rw [if_pos (by omega), if_neg (by omega), hfind]

/-- The deduplicating child-entry loop is the raw loop followed by the
`insertPath` fold over its occurrences. -/
theorem readEntries_eq_all (data d : Bytes) :
    ∀ (fuel pos : Nat) (seen acc : List Bytes),
      readEntries data d fuel pos seen acc =
        (readEntriesAll data d fuel pos).map
          (fun r => (r.1,
            r.2.foldl (fun sa p => insertPath sa.1 sa.2 p) (seen, acc))) := by
  intro fuel
  induction fuel with
  | zero => intro pos seen acc; rfl
  | succ f ih =>
    intro pos seen acc
    by_cases hlt : pos < data.length
    · obtain ⟨b, hb⟩ : ∃ b, data.get? pos = some b :=
        ⟨_, List.get?_eq_get hlt⟩
      by_cases hty : b = END_ENTRY
      · rw [hty] at hb
        rw [readEntries_step_end hlt hb, readEntriesAll_step_end hlt hb]
        rfl
      · cases hfn : findNull data (pos + 1) with
        | none =>
          rw [readEntries_step_err hlt hb hty hfn,
            readEntriesAll_step_err hlt hb hty hfn]
          rfl
        | some nIdx =>
          rw [readEntries_step_entry hlt hb hty hfn,
            readEntriesAll_step_entry hlt hb hty hfn,
            ih (nIdx + 1) _ _]
          cases hra : readEntriesAll data d f (nIdx + 1) with
          | error e => rfl
          | ok r => rfl
    · rw [readEntries_stop (by omega), readEntriesAll_stop (by omega)]
      rfl

/-- The deduplicating directory loop is the raw loop followed by the
`insertPath` fold over its occurrences. -/
theorem readDirs_eq_all (data : Bytes) :
    ∀ (fuel pos : Nat) (seen acc : List Bytes),
      readDirs data fuel pos seen acc =
        (readDirsAll data fuel pos).map
          (fun l =>
            (l.foldl (fun sa p => insertPath sa.1 sa.2 p) (seen, acc)).2) := by
  intro fuel
  induction fuel with
  | zero => intro pos seen acc; rfl
  | succ f ih =>
    intro pos seen acc
    by_cases hlt : pos < data.length
    · by_cases h16 : pos + 16 ≤ data.length
      · cases hfn : findNull data (pos + 16) with
        | none =>
          rw [readDirs_step_err h16 hfn, readDirsAll_step_err h16 hfn]
          rfl
        | some nIdx =>
          rw [readDirs_step h16 hfn, readDirsAll_step h16 hfn,
            readEntries_eq_all data _ (data.length + 1) (nIdx + 1) _ _]
          cases hre : readEntriesAll data (slice data (pos + 16) nIdx)
              (data.length + 1) (nIdx + 1) with
          | error e => rfl
          | ok r =>
            obtain ⟨pos', entries⟩ := r
            simp only [Except.map]
            rw [ih pos' _ _]
            cases hrd : readDirsAll data f pos' with
            | error e => rfl
            | ok rest =>
              simp only [Except.map]
              rw [List.foldl_cons, List.foldl_append]
      · rw [readDirs_stop_short hlt (by omega),
          readDirsAll_stop_short hlt (by omega)]
        rfl
    · rw [readDirs_at_end (by omega), readDirsAll_at_end (by omega)]
      rfl

theorem map_keepFirst_last_step (res : Except ParseError (List Bytes))
    (root : Bytes) (ver : Nat) :
    (match res.map
        (fun l => (l.foldl (fun sa p => insertPath sa.1 sa.2 p) ([], [])).2) with
     | .error e => .error e
     | .ok paths => .ok (⟨paths, root, ver⟩ : Decoded)) =
      Except.map (fun r => ⟨keepFirst r.paths, r.root_path, r.version⟩)
        (match res with
         | .error e => .error e
         | .ok paths => .ok (⟨paths, root, ver⟩ : Decoded)) := by
  cases res with
  | error e => rfl
  | ok l =>
    simp only [Except.map]
    rw [foldl_insertPath_eq_keepFirst l [] [] (by simp)]
    rfl

/-- C2: the decoder's output is the first-occurrence deduplication of the
raw occurrence stream — however many times the byte stream encodes the
same directory path or full child path, it appears exactly once, at the
position of its first occurrence, with insertion order preserved
(`keepFirst` keeps an occurrence iff it differs from every earlier one) —
and consequently no path appears twice in any successful decode. -/
theorem C2_first_occurrence_dedup (data : Bytes) :
    parse_mlocate_db data =
      (parse_all_occurrences data).map
        (fun r => ⟨keepFirst r.paths, r.root_path, r.version⟩) ∧
    ∀ r, parse_mlocate_db data = .ok r → r.paths.Nodup := by
  have hmain : parse_mlocate_db data =
      (parse_all_occurrences data).map
        (fun r => ⟨keepFirst r.paths, r.root_path, r.version⟩) := by
    unfold parse_mlocate_db parse_all_occurrences
    split
    · rfl
    · split
      · rfl
      · split
        · rfl
        · split
          · rfl
          · split
            · rfl
            · rw [readDirs_eq_all data]
              exact map_keepFirst_last_step _ _ _
  refine ⟨hmain, ?_⟩
  intro r hok
  rw [hmain] at hok
  cases hall : parse_all_occurrences data with
  | error e =>
    rw [hall] at hok
    exact Except.noConfusion hok
  | ok r0 =>
    rw [hall] at hok
    simp only [Except.map] at hok
    obtain rfl := Except.ok.inj hok
    exact keepFirst_nodup _

/-- Witness for C2 on a buffer that encodes the directory `"/"` twice and
the child path `"/etc"` twice: the raw stream holds five occurrences, the
decoder returns the three distinct paths `"/"`, `"/etc"`, `"/a"`, each at
its first occurrence, and the output has no duplicates. -/
theorem C2_first_occurrence_dedup_witness :
    parse_all_occurrences (MLOCATE_MAGIC ++ [0, 0, 0, 1] ++ [1, 0, 0, 0] ++ [0]
        ++ List.replicate 16 0 ++ [47, 0] ++ [0, 101, 116, 99, 0] ++ [2]
        ++ List.replicate 16 0 ++ [47, 0] ++ [0, 101, 116, 99, 0]
        ++ [0, 97, 0] ++ [2]) =
      .ok ⟨[[47], [47, 101, 116, 99], [47], [47, 101, 116, 99], [47, 97]],
        [], 1⟩ ∧
    parse_mlocate_db (MLOCATE_MAGIC ++ [0, 0, 0, 1] ++ [1, 0, 0, 0] ++ [0]
        ++ List.replicate 16 0 ++ [47, 0] ++ [0, 101, 116, 99, 0] ++ [2]
        ++ List.replicate 16 0 ++ [47, 0] ++ [0, 101, 116, 99, 0]
        ++ [0, 97, 0] ++ [2]) =
      (parse_all_occurrences (MLOCATE_MAGIC ++ [0, 0, 0, 1] ++ [1, 0, 0, 0] ++ [0]
          ++ List.replicate 16 0 ++ [47, 0] ++ [0, 101, 116, 99, 0] ++ [2]
          ++ List.replicate 16 0 ++ [47, 0] ++ [0, 101, 116, 99, 0]
          ++ [0, 97, 0] ++ [2])).map
        (fun r => ⟨keepFirst r.paths, r.root_path, r.version⟩) ∧
    ([[47], [47, 101, 116, 99], [47, 97]] : List Bytes).Nodup :=
  ⟨by decide,
    (C2_first_occurrence_dedup (MLOCATE_MAGIC ++ [0, 0, 0, 1] ++ [1, 0, 0, 0]
      ++ [0] ++ List.replicate 16 0 ++ [47, 0] ++ [0, 101, 116, 99, 0] ++ [2]
      ++ List.replicate 16 0 ++ [47, 0] ++ [0, 101, 116, 99, 0]
      ++ [0, 97, 0] ++ [2])).1,
    (C2_first_occurrence_dedup (MLOCATE_MAGIC ++ [0, 0, 0, 1] ++ [1, 0, 0, 0]
      ++ [0] ++ List.replicate 16 0 ++ [47, 0] ++ [0, 101, 116, 99, 0] ++ [2]
      ++ List.replicate 16 0 ++ [47, 0] ++ [0, 101, 116, 99, 0]
      ++ [0, 97, 0] ++ [2])).2
      ⟨[[47], [47, 101, 116, 99], [47, 97]], [], 1⟩ (by decide)⟩

end Mlocate
